import Mathlib

/-!
Verification of the configuration-replacement script
(`.github/scripts/replace_config.py`).

The script is embedded shallowly:

* Python `str` values are lists of Unicode code points (`List Nat`);
  raw file contents are lists of bytes (`List Nat`, each `< 256`).
* The filesystem is an association list from paths (`List Char`) to files;
  a file records its byte content and its modification time (`Nat`).
  I/O is deterministic: opening an existing file succeeds, writes succeed.
  `shutil.copy2` copies content and preserves the modification time.
* `datetime.now().strftime(...)` is modelled by a natural-number clock whose
  decimal rendering supplies the backup-name timestamp; a write stamps the
  written file with the current clock value.
* The codecs `utf-8`, `utf-8-sig`, `latin-1`, `cp1252` and `ascii` are
  implemented; the external CJK codecs `gbk` and `gb2312` are abstracted as a
  parameter (`DBCS`) since their code tables are not part of this repository.
* Text-mode reads perform universal-newline translation; the script runs on
  Linux (GitHub Actions), so text-mode writes do not translate newlines.
* Exceptions inside the `try` block of `safe_replace_in_file` are modelled by
  `Except`: the error value carries the filesystem at the raise point, and the
  handler performs the rollback, mirroring the `except` clauses.
-/

/-- A file on disk: raw byte content plus modification time. -/
structure RFile where
  content : List Nat
  mtime : Nat
  deriving DecidableEq, Repr

/-- A path, as the list of characters of the Python path string. -/
abbrev FPath := List Char

/-- The filesystem: an association list from paths to files (unique keys). -/
abbrev FS := List (FPath × RFile)

/-- Model of `os.path.exists` / opening a file: first entry with the given path. -/
def fsLookup : FS → FPath → Option RFile
  | [], _ => none
  | e :: rest, q => if e.1 = q then some e.2 else fsLookup rest q

/-- Writing a file: replace the entry if present, otherwise create it. -/
def fsSet : FS → FPath → RFile → FS
  | [], q, f => [(q, f)]
  | e :: rest, q, f => if e.1 = q then (q, f) :: rest else e :: fsSet rest q f

/-- Model of `os.remove`: drop the entry with the given path. -/
def fsRemove (fs : FS) (q : FPath) : FS :=
  fs.filter (fun e => decide (e.1 ≠ q))

/-- Boolean test that `s` begins the list `l` (Python `str.startswith`,
and the one-position test used below for substring search). -/
def beginsWith [DecidableEq α] : List α → List α → Bool
  | [], _ => true
  | _ :: _, [] => false
  | a :: s', b :: l' => decide (a = b) && beginsWith s' l'

/-- Boolean substring test (Python `x in s` on strings / bytes). -/
def hasSub [DecidableEq α] (s : List α) : List α → Bool
  | [] => beginsWith s []
  | c :: rest => beginsWith s (c :: rest) || hasSub s rest

/-- Number of (possibly overlapping) positions at which `s` occurs in `l`. -/
def occCount [DecidableEq α] (s : List α) : List α → Nat
  | [] => if beginsWith s [] then 1 else 0
  | c :: rest => (if beginsWith s (c :: rest) then 1 else 0) + occCount s rest

/-- Fuelled worker for `replaceAll`; the fuel is the length of the scanned
list, so it never runs out on the call below. -/
def replaceAllF [DecidableEq α] : Nat → List α → List α → List α → List α
  | 0, l, _, _ => l
  | _ + 1, [], _, _ => []
  | fuel + 1, c :: rest, s, r =>
    if beginsWith s (c :: rest) && !s.isEmpty then
      r ++ replaceAllF fuel ((c :: rest).drop s.length) s r
    else
      c :: replaceAllF fuel rest s r

/-- Python `str.replace` / `bytes.replace`: replace every occurrence of `s`
by `r`, scanning left to right, non-overlapping.  Both call sites in the
script guard against an empty search string, so the (diverging) Python
behaviour on an empty pattern is irrelevant; here an empty `s` leaves the
list unchanged. -/
def replaceAll [DecidableEq α] (s r l : List α) : List α :=
  replaceAllF l.length l s r

/-- Second byte allowed after the lead byte `b1` of a multi-byte UTF-8
sequence (ranges exclude overlong encodings and surrogates). -/
def cont2ok (b1 b2 : Nat) : Bool :=
  if b1 = 0xE0 then 0xA0 ≤ b2 && b2 ≤ 0xBF
  else if b1 = 0xED then 0x80 ≤ b2 && b2 ≤ 0x9F
  else if b1 = 0xF0 then 0x90 ≤ b2 && b2 ≤ 0xBF
  else if b1 = 0xF4 then 0x80 ≤ b2 && b2 ≤ 0x8F
  else 0x80 ≤ b2 && b2 ≤ 0xBF

/-- UTF-8 continuation byte. -/
def isCont (b : Nat) : Bool := 0x80 ≤ b && b < 0xC0

/-- Strict UTF-8 decoding (`bytes.decode('utf-8')`): code points of the
byte list, or `none` on malformed input (as a `UnicodeDecodeError`). -/
def utf8Decode : List Nat → Option (List Nat)
  | [] => some []
  | b1 :: t1 =>
    if b1 < 0x80 then (utf8Decode t1).map (fun cs => b1 :: cs)
    else if b1 < 0xC2 || 0xF4 < b1 then none
    else if b1 < 0xE0 then
      match t1 with
      | [] => none
      | b2 :: t2 =>
        if isCont b2 then
          (utf8Decode t2).map (fun cs => ((b1 - 0xC0) * 0x40 + (b2 - 0x80)) :: cs)
        else none
    else if b1 < 0xF0 then
      match t1 with
      | b2 :: b3 :: t3 =>
        if cont2ok b1 b2 && isCont b3 then
          (utf8Decode t3).map
            (fun cs => ((b1 - 0xE0) * 0x1000 + (b2 - 0x80) * 0x40 + (b3 - 0x80)) :: cs)
        else none
      | _ => none
    else
      match t1 with
      | b2 :: b3 :: b4 :: t4 =>
        if cont2ok b1 b2 && isCont b3 && isCont b4 then
          (utf8Decode t4).map
            (fun cs =>
              ((b1 - 0xF0) * 0x40000 + (b2 - 0x80) * 0x1000 +
                (b3 - 0x80) * 0x40 + (b4 - 0x80)) :: cs)
        else none
      | _ => none

/-- Fuelled worker for `utf8DecodeR`; every step consumes at least one
byte, so fuel equal to the length of the byte list never runs out. -/
def utf8DecodeRF : Nat → List Nat → List Nat
  | 0, _ => []
  | _ + 1, [] => []
  | fuel + 1, b1 :: t1 =>
    if b1 < 0x80 then b1 :: utf8DecodeRF fuel t1
    else if b1 < 0xC2 || 0xF4 < b1 then 0xFFFD :: utf8DecodeRF fuel t1
    else if b1 < 0xE0 then
      match t1 with
      | [] => [0xFFFD]
      | b2 :: t2 =>
        if isCont b2 then ((b1 - 0xC0) * 0x40 + (b2 - 0x80)) :: utf8DecodeRF fuel t2
        else 0xFFFD :: utf8DecodeRF fuel t1
    else if b1 < 0xF0 then
      match t1 with
      | [] => [0xFFFD]
      | b2 :: t2 =>
        if cont2ok b1 b2 then
          match t2 with
          | [] => [0xFFFD]
          | b3 :: t3 =>
            if isCont b3 then
              ((b1 - 0xE0) * 0x1000 + (b2 - 0x80) * 0x40 + (b3 - 0x80)) :: utf8DecodeRF fuel t3
            else 0xFFFD :: utf8DecodeRF fuel t2
        else 0xFFFD :: utf8DecodeRF fuel t1
    else
      match t1 with
      | [] => [0xFFFD]
      | b2 :: t2 =>
        if cont2ok b1 b2 then
          match t2 with
          | [] => [0xFFFD]
          | b3 :: t3 =>
            if isCont b3 then
              match t3 with
              | [] => [0xFFFD]
              | b4 :: t4 =>
                if isCont b4 then
                  ((b1 - 0xF0) * 0x40000 + (b2 - 0x80) * 0x1000 +
                    (b3 - 0x80) * 0x40 + (b4 - 0x80)) :: utf8DecodeRF fuel t4
                else 0xFFFD :: utf8DecodeRF fuel t3
            else 0xFFFD :: utf8DecodeRF fuel t2
        else 0xFFFD :: utf8DecodeRF fuel t1

/-- UTF-8 decoding with `errors='replace'`: each maximal subpart of an
ill-formed sequence yields one U+FFFD, as in CPython's replace handler. -/
def utf8DecodeR (bytes : List Nat) : List Nat :=
  utf8DecodeRF bytes.length bytes

/-- Strict UTF-8 encoding of one code point (`str.encode('utf-8')`);
`none` on surrogates or out-of-range values (a `UnicodeEncodeError`). -/
def utf8EncodeChar (c : Nat) : Option (List Nat) :=
  if c < 0x80 then some [c]
  else if c < 0x800 then some [0xC0 + c / 0x40, 0x80 + c % 0x40]
  else if c < 0x10000 then
    if 0xD800 ≤ c && c ≤ 0xDFFF then none
    else some [0xE0 + c / 0x1000, 0x80 + c / 0x40 % 0x40, 0x80 + c % 0x40]
  else if c < 0x110000 then
    some [0xF0 + c / 0x40000, 0x80 + c / 0x1000 % 0x40,
          0x80 + c / 0x40 % 0x40, 0x80 + c % 0x40]
  else none

/-- Strict UTF-8 encoding of a string. -/
def utf8Encode : List Nat → Option (List Nat)
  | [] => some []
  | c :: rest =>
    match utf8EncodeChar c, utf8Encode rest with
    | some bs, some bss => some (bs ++ bss)
    | _, _ => none

/-- The UTF-8 byte-order mark. -/
def bomBytes : List Nat := [0xEF, 0xBB, 0xBF]

/-- Drop a leading BOM if present (the `utf-8-sig` codec). -/
def stripBOM (bytes : List Nat) : List Nat :=
  if beginsWith bomBytes bytes then bytes.drop 3 else bytes

/-- Strict `ascii` decoding. -/
def asciiDecode (bytes : List Nat) : Option (List Nat) :=
  if bytes.all (fun b => b < 0x80) then some bytes else none

/-- The `cp1252` table on the 0x80–0x9F range; other bytes map to
themselves.  `none` marks the five undefined bytes. -/
def cp1252Char (b : Nat) : Option Nat :=
  if b < 0x80 || 0xA0 ≤ b then some b
  else if b = 0x80 then some 0x20AC
  else if b = 0x82 then some 0x201A
  else if b = 0x83 then some 0x0192
  else if b = 0x84 then some 0x201E
  else if b = 0x85 then some 0x2026
  else if b = 0x86 then some 0x2020
  else if b = 0x87 then some 0x2021
  else if b = 0x88 then some 0x02C6
  else if b = 0x89 then some 0x2030
  else if b = 0x8A then some 0x0160
  else if b = 0x8B then some 0x2039
  else if b = 0x8C then some 0x0152
  else if b = 0x8E then some 0x017D
  else if b = 0x91 then some 0x2018
  else if b = 0x92 then some 0x2019
  else if b = 0x93 then some 0x201C
  else if b = 0x94 then some 0x201D
  else if b = 0x95 then some 0x2022
  else if b = 0x96 then some 0x2013
  else if b = 0x97 then some 0x2014
  else if b = 0x98 then some 0x02DC
  else if b = 0x99 then some 0x2122
  else if b = 0x9A then some 0x0161
  else if b = 0x9B then some 0x203A
  else if b = 0x9C then some 0x0153
  else if b = 0x9E then some 0x017E
  else if b = 0x9F then some 0x0178
  else none

/-- Strict `cp1252` decoding. -/
def cp1252Decode : List Nat → Option (List Nat)
  | [] => some []
  | b :: rest =>
    match cp1252Char b, cp1252Decode rest with
    | some c, some cs => some (c :: cs)
    | _, _ => none

/-- The `cp1252` decoding with `errors='replace'`. -/
def cp1252DecodeR (bytes : List Nat) : List Nat :=
  bytes.map (fun b => (cp1252Char b).getD 0xFFFD)

/-- The `ascii` decoding with `errors='replace'`. -/
def asciiDecodeR (bytes : List Nat) : List Nat :=
  bytes.map (fun b => if b < 0x80 then b else 0xFFFD)

/-- Behaviour of the external CJK codecs (`gbk`, `gb2312`), whose code
tables live in the Python codec library, not in this repository.  The
strict decoders return `none` on a `UnicodeDecodeError`; the `R` variants
are the `errors='replace'` decoders. -/
structure DBCS where
  gbk : List Nat → Option (List Nat)
  gb2312 : List Nat → Option (List Nat)
  gbkR : List Nat → List Nat
  gb2312R : List Nat → List Nat

/-- Strict decoding under a named encoding (used by the detection loop). -/
def decodeStrict (D : DBCS) (enc : String) (bytes : List Nat) : Option (List Nat) :=
  if enc = "utf-8" then utf8Decode bytes
  else if enc = "utf-8-sig" then utf8Decode (stripBOM bytes)
  else if enc = "gbk" then D.gbk bytes
  else if enc = "gb2312" then D.gb2312 bytes
  else if enc = "latin-1" then some bytes
  else if enc = "cp1252" then cp1252Decode bytes
  else if enc = "ascii" then asciiDecode bytes
  else none

/-- Decoding with `errors='replace'` under a named encoding. -/
def decodeReplace (D : DBCS) (enc : String) (bytes : List Nat) : List Nat :=
  if enc = "utf-8" then utf8DecodeR bytes
  else if enc = "utf-8-sig" then utf8DecodeR (stripBOM bytes)
  else if enc = "gbk" then D.gbkR bytes
  else if enc = "gb2312" then D.gb2312R bytes
  else if enc = "latin-1" then bytes
  else if enc = "cp1252" then cp1252DecodeR bytes
  else if enc = "ascii" then asciiDecodeR bytes
  else bytes

/-- Universal-newline translation performed by text-mode reads:
CR LF and lone CR both become LF. -/
def univNewlines : List Nat → List Nat
  | [] => []
  | 13 :: 10 :: rest => 10 :: univNewlines rest
  | 13 :: rest => 10 :: univNewlines rest
  | c :: rest => c :: univNewlines rest

/-- Result of `open(filepath, 'r', encoding=enc, errors='replace').read()`
applied to the given raw bytes. -/
def readText (D : DBCS) (enc : String) (bytes : List Nat) : List Nat :=
  univNewlines (decodeReplace D enc bytes)

/-- Fuelled little-endian base-10 digits of a natural number. -/
def natDigitsF : Nat → Nat → List Nat
  | 0, _ => []
  | fuel + 1, n => if n = 0 then [] else n % 10 :: natDigitsF fuel (n / 10)

/-- Little-endian base-10 digits (`n` itself is enough fuel). -/
def natDigits (n : Nat) : List Nat := natDigitsF n n

/-- The timestamp string `datetime.now().strftime("%Y%m%d_%H%M%S")` is
modelled as the decimal rendering of the clock value: an injective,
monotone textual stamp with second-level granularity. -/
def stamp (t : Nat) : FPath := (natDigits t).reverse.map Nat.digitChar

/-- The backup-name suffix convention `<original>.backup_<timestamp>`. -/
def backupSep : FPath := ['.', 'b', 'a', 'c', 'k', 'u', 'p', '_']

/-- The backup path `f"{filepath}.backup_{timestamp}"`. -/
def bname (p : FPath) (t : Nat) : FPath := p ++ backupSep ++ stamp t

/-- Model of `backup_file(filepath)`: if the file exists, copy it (content and,
as `shutil.copy2` does, modification time) to the timestamped backup path
and return that path; otherwise return `None`. -/
def backup_file (t : Nat) (fs : FS) (p : FPath) : Option FPath × FS :=
  match fsLookup fs p with
  | none => (none, fs)
  | some f => (some (bname p t), fsSet fs (bname p t) ⟨f.content, f.mtime⟩)

/-- The ordered candidate list of `detect_file_encoding`. -/
def encodingCandidates : List String :=
  ["utf-8", "utf-8-sig", "gbk", "gb2312", "latin-1", "cp1252", "ascii"]

/-- One iteration of the detection loop: decode the whole file strictly,
then try to re-encode the text as UTF-8.  A clean decode that re-encodes
gives `(enc, "high")`; a clean decode whose re-encode raises
`UnicodeEncodeError` gives `(enc, "medium")`; a decode failure means the
loop continues (`none`).  Newline translation of the text-mode read is
omitted here: it only rewrites CR/LF characters and cannot change whether
decoding or UTF-8 re-encoding succeeds. -/
def tryCandidate (D : DBCS) (enc : String) (bytes : List Nat) : Option (String × String) :=
  match decodeStrict D enc bytes with
  | none => none
  | some text => if (utf8Encode text).isSome then some (enc, "high") else some (enc, "medium")

/-- The `for encoding in encodings` loop of `detect_file_encoding`. -/
def detectLoop (D : DBCS) (bytes : List Nat) : List String → Option (String × String)
  | [] => none
  | enc :: rest =>
    match tryCandidate D enc bytes with
    | some result => some result
    | none => detectLoop D bytes rest

/-- The binary fallback block of `detect_file_encoding` (lines 55-66):
first try to decode the (up to 4096) raw bytes as UTF-8, otherwise check
for a BOM, otherwise default to `latin-1`. -/
def binaryFallback (raw : List Nat) : String × String :=
  if (utf8Decode raw).isSome then ("utf-8", "low")
  else if beginsWith bomBytes raw then ("utf-8-sig", "medium")
  else ("latin-1", "lowest")

/-- Follows the words of the specification for the fallback (claim C7),
for comparison with `binaryFallback`: "check for a UTF-8 byte-order-mark
prefix, otherwise check whether the raw bytes are valid UTF-8, otherwise
default to Latin-1". -/
def binaryFallbackClaimed (raw : List Nat) : String × String :=
  if beginsWith bomBytes raw then ("utf-8-sig", "medium")
  else if (utf8Decode raw).isSome then ("utf-8", "low")
  else ("latin-1", "lowest")

/-- Model of `detect_file_encoding(filepath)`.  When the file cannot be opened at
all, every candidate raises, the binary open raises too, and the function
returns `('utf-8', 'unknown')`.  Otherwise the candidate loop runs; if it
falls through, the binary fallback inspects the first 4096 raw bytes. -/
def detect_file_encoding (D : DBCS) (fs : FS) (p : FPath) : String × String :=
  match fsLookup fs p with
  | none => ("utf-8", "unknown")
  | some f =>
    match detectLoop D f.content encodingCandidates with
    | some result => result
    | none => binaryFallback (f.content.take 4096)

/-- The body of the `try` block of `safe_replace_in_file`, entered after
the precondition checks and the backup.  `.error fs'` models an exception
raised with the filesystem in state `fs'` (a `UnicodeDecodeError`, a
`UnicodeEncodeError` from `.encode('utf-8')` or the UTF-8 write, a failed
re-open, or the verification `raise`); the caller's handler rolls back.
A `UnicodeEncodeError` during the text-mode write is reported with the
pre-write state: the rollback that follows overwrites the file either
way, so intermediate truncation is not observable in the final state. -/
def safeReplaceCore (D : DBCS) (t : Nat) (fs : FS) (p : FPath) (s r : List Nat)
    (enc : String) : Except FS (Bool × FS) :=
  match fsLookup fs p with
  | none => .error fs
  | some f =>
    let content := readText D enc f.content
    if hasSub s content then
      let new_content := replaceAll s r content
      if new_content = content then .ok (false, fs)
      else
        match utf8Encode new_content with
        | none => .error fs
        | some out =>
          let fs2 := fsSet fs p ⟨out, t⟩
          match utf8Decode out with
          | none => .error fs2
          | some vraw =>
            if hasSub r (univNewlines vraw) then .ok (true, fs2)
            else .error fs2
    else
      match utf8Encode s with
      | none => .error fs
      | some search_bytes =>
        if hasSub search_bytes f.content then
          match utf8Encode r with
          | none => .error fs
          | some replace_bytes =>
            .ok (true, fsSet fs p ⟨replaceAll search_bytes replace_bytes f.content, t⟩)
        else .ok (false, fs)

/-- Model of `safe_replace_in_file(filepath, search_text, replace_text)`:
precondition checks, encoding detection, backup, then the `try` block;
on an exception, best-effort rollback from the backup and `False`. -/
def safe_replace_in_file (D : DBCS) (t : Nat) (fs : FS) (p : FPath)
    (s r : List Nat) : Bool × FS :=
  match fsLookup fs p with
  | none => (false, fs)
  | some _ =>
    if s = [] ∨ r = [] then (false, fs)
    else
      let enc := (detect_file_encoding D fs p).1
      match backup_file t fs p with
      | (backup_path, fs1) =>
        match safeReplaceCore D t fs1 p s r enc with
        | .ok result => result
        | .error fsE =>
          match backup_path with
          | none => (false, fsE)
          | some bp =>
            match fsLookup fsE bp with
            | some b => (false, fsSet fsE p b)
            | none => (false, fsE)

/-- Model of `os.path.dirname` and `os.path.basename`: split at the last slash. -/
def dirBase : FPath → FPath × FPath
  | [] => ([], [])
  | c :: rest =>
    if '/' ∈ rest then
      ((dirBase rest).1.cons c, (dirBase rest).2)
    else if c = '/' then ([], rest)
    else ([], c :: rest)

/-- Membership test of the backup-listing loop in `cleanup_old_backups`:
`q` lives in the directory of `target` (it shows up in `os.listdir`) and
its name is the target's name followed by the backup suffix convention.
Every filesystem entry is a file, so the `os.path.isfile` check holds. -/
def isBackupOf (target q : FPath) : Bool :=
  decide ((dirBase q).1 = (dirBase target).1) &&
    beginsWith ((dirBase target).2 ++ backupSep) (dirBase q).2

/-- The backup files of `target` currently on disk, in directory order
(`os.listdir` is modelled as enumerating entries in filesystem order). -/
def backupEntries (fs : FS) (target : FPath) : FS :=
  fs.filter (fun e => isBackupOf target e.1)

/-- Stable insertion of `(path, mtime)` keeping earlier entries of equal
modification time first. -/
def insertByMtime (x : FPath × Nat) : List (FPath × Nat) → List (FPath × Nat)
  | [] => [x]
  | y :: rest => if y.2 < x.2 then y :: insertByMtime x rest else x :: y :: rest

/-- Model of `backups.sort(key=lambda x: x[1])`: Python's sort is stable, and a
stable sort by modification time is unique, so insertion sort models it
exactly. -/
def sortByMtime : List (FPath × Nat) → List (FPath × Nat)
  | [] => []
  | x :: rest => insertByMtime x (sortByMtime rest)

/-- Model of `cleanup_old_backups(filepath, keep_count)`: if the file exists, list
its sibling backup files with their modification times, sort ascending by
modification time, and delete all but the `keep_count` newest. -/
def cleanup_old_backups (fs : FS) (p : FPath) (keep_count : Nat) : FS :=
  match fsLookup fs p with
  | none => fs
  | some _ =>
    let backups := (backupEntries fs p).map (fun e => (e.1, e.2.mtime))
    let sorted := sortByMtime backups
    (sorted.take (sorted.length - keep_count)).foldl (fun acc e => fsRemove acc e.1) fs

/-- One requested substitution. -/
structure Oper where
  file : FPath
  search : List Nat
  replace : List Nat

/-- The body of the `for op in operations` loop in `main`: run the
replacement and, only after a success, prune old backups with
`keep_count=2`. -/
def runOp (D : DBCS) (t : Nat) (fs : FS) (op : Oper) : Bool × FS :=
  match safe_replace_in_file D t fs op.file op.search op.replace with
  | (true, fs1) => (true, cleanup_old_backups fs1 op.file 2)
  | (false, fs1) => (false, fs1)

/-- The whole operation loop: successive operations run at successive
clock values; returns the success count. -/
def runOps (D : DBCS) : Nat → FS → List Oper → Nat × FS
  | _, fs, [] => (0, fs)
  | t, fs, op :: rest =>
    match runOp D t fs op with
    | (ok, fs1) =>
      match runOps D (t + 1) fs1 rest with
      | (cnt, fs2) => ((if ok then 1 else 0) + cnt, fs2)

/-- Running the same operation `n` times in a row (used for the backup
retention property): returns the success count. -/
def iterOp (D : DBCS) (op : Oper) : Nat → Nat → FS → Nat × FS
  | _, 0, fs => (0, fs)
  | t, n + 1, fs =>
    match runOp D t fs op with
    | (ok, fs1) =>
      match iterOp D op (t + 1) n fs1 with
      | (cnt, fs2) => ((if ok then 1 else 0) + cnt, fs2)

/-- Characters stripped by `str.strip()` (ASCII whitespace and the
common Unicode additions; exotic Unicode spaces do not appear in the
values this script consumes). -/
def isPySpace (c : Nat) : Bool :=
  (9 ≤ c && c ≤ 13) || (28 ≤ c && c ≤ 31) || c = 32 || c = 133 || c = 160

/-- Python `str.strip()`. -/
def pyStrip (l : List Nat) : List Nat :=
  ((l.dropWhile isPySpace).reverse.dropWhile isPySpace).reverse

/-- The three optional environment values (after `os.environ.get(..., '')`,
before `.strip()`). -/
structure Env where
  relay : List Nat
  pubKey : List Nat
  apiUrl : List Nat

/-- Code points of a literal (the fixed search strings of the script). -/
def codes (s : String) : List Nat := s.data.map Char.toNat

/-- The f-string interpolation wrapping a value in double quotes. -/
def quoted (v : List Nat) : List Nat := 34 :: v ++ [34]

/-- The ordered operation list built by `main` from the stripped
environment values: relay server, RSA key, API URL, each included only
when its value is non-empty. -/
def buildOps (relay key api : List Nat) : List Oper :=
  (if relay ≠ [] then
    [⟨("libs/hbb_common/src/config.rs").data, codes "\"rs-ny.rustdesk.com\"", quoted relay⟩]
   else []) ++
  (if key ≠ [] then
    [⟨("libs/hbb_common/src/config.rs").data,
      codes "\"OeVuKk5nlHiXp+APNn0Y3pC1Iwpwn44JGqrQCsWqmBw=\"", quoted key⟩]
   else []) ++
  (if api ≠ [] then
    [⟨("src/common.rs").data, codes "\"https://admin.rustdesk.com\"", quoted api⟩]
   else [])

/-- Model of `main()`: read and strip the three environment values; with no custom
configuration exit 0 immediately; otherwise run the operations in order
and exit 0 exactly when at least one succeeded, else 1.  (Lean reserves
the name `main` for executable entry points, hence `mainEntry`.) -/
def mainEntry (D : DBCS) (t : Nat) (fs : FS) (env : Env) : Nat × FS :=
  let relay := pyStrip env.relay
  let key := pyStrip env.pubKey
  let api := pyStrip env.apiUrl
  if relay = [] ∧ key = [] ∧ api = [] then (0, fs)
  else
    match runOps D t fs (buildOps relay key api) with
    | (success_count, fs') => (if 0 < success_count then 0 else 1, fs')

/-- Little-endian value of a digit list (left inverse of `natDigits`). -/
def digitsVal : List Nat → Nat
  | [] => 0
  | d :: rest => d + 10 * digitsVal rest

/-- A trivial instantiation of the abstract CJK codecs (always failing to
decode), used to evaluate the model at concrete inputs. -/
def dbcsStub : DBCS := ⟨fun _ => none, fun _ => none, fun _ => [], fun _ => []⟩

/-- Invariant after `k ≥ 2` successful replacements starting at clock
`t0`: the target carries the last write, and exactly the backups of the
two most recent runs remain, ordered by modification time. -/
def retentionInv (p : FPath) (t0 k : Nat) (st : FS) : Prop :=
  ∃ c b1 b2, fsLookup st p = some ⟨c, t0 + k - 1⟩ ∧
    backupEntries st p = [(bname p (t0 + k - 2), b1), (bname p (t0 + k - 1), b2)] ∧
    b1.mtime < b2.mtime ∧ b2.mtime = t0 + k - 2


/-! ### Basic properties of the substring primitives -/

theorem beginsWith_iff [DecidableEq α] (s l : List α) :
    beginsWith s l = true ↔ s <+: l := by
  induction s generalizing l with
  | nil =>
    constructor
    · intro _
      exact ⟨l, rfl⟩
    · intro _
      rfl
  | cons a s' ih =>
    cases l with
    | nil =>
      simp [beginsWith, List.prefix_nil]
    | cons b l' =>
      simp [beginsWith, ih, List.cons_prefix_cons, and_comm]

theorem hasSub_iff [DecidableEq α] (s l : List α) :
    hasSub s l = true ↔ s <:+: l := by
  induction l with
  | nil => simp [hasSub, beginsWith_iff, List.prefix_nil, List.infix_nil]
  | cons c rest ih => simp [hasSub, beginsWith_iff, ih, List.infix_cons_iff]

theorem occCount_eq_zero_iff [DecidableEq α] (s l : List α) :
    occCount s l = 0 ↔ hasSub s l = false := by
  induction l with
  | nil =>
    simp only [occCount, hasSub]
    split <;> simp_all
  | cons c rest ih =>
    simp only [occCount, hasSub]
    split <;> simp_all

theorem occCount_le_of_suffix [DecidableEq α] (s t l : List α)
    (h : t <:+ l) : occCount s t ≤ occCount s l := by
  induction l with
  | nil => rw [List.suffix_nil.mp h]
  | cons c rest ih =>
    rcases List.suffix_cons_iff.mp h with h' | h'
    · rw [h']
    · calc occCount s t ≤ occCount s rest := ih h'
        _ ≤ _ := by simp only [occCount]; omega

theorem occCount_pos_of_split [DecidableEq α] (s pre post : List α) :
    1 ≤ occCount s (pre ++ (s ++ post)) := by
  induction pre with
  | nil =>
    simp only [List.nil_append]
    cases h : s ++ post with
    | nil =>
      rcases List.append_eq_nil.mp h with ⟨hs, hp⟩
      subst hs; subst hp; simp [occCount, beginsWith]
    | cons c rest =>
      have hb : beginsWith s (c :: rest) = true := by
        rw [← h]
        exact (beginsWith_iff s (s ++ post)).mpr ⟨post, rfl⟩
      simp only [occCount, hb, if_pos]
      omega
  | cons c pre' ih =>
    have h2 : occCount s ((c :: pre') ++ (s ++ post)) =
        (if beginsWith s (c :: (pre' ++ (s ++ post))) = true then 1 else 0) +
          occCount s (pre' ++ (s ++ post)) := by
      rfl
    rw [h2]
    exact le_trans ih (Nat.le_add_left _ _)

theorem replaceAllF_of_occ_zero [DecidableEq α] (s r : List α) :
    ∀ (fuel : Nat) (l : List α), occCount s l = 0 → replaceAllF fuel l s r = l := by
  intro fuel
  induction fuel with
  | zero => intro l _; rfl
  | succ fuel ih =>
    intro l h
    cases l with
    | nil => rfl
    | cons c rest =>
      simp only [occCount] at h
      have hb : beginsWith s (c :: rest) = false := by
        cases hb : beginsWith s (c :: rest) <;> simp [hb] at h ⊢
      have hrest : occCount s rest = 0 := by
        rw [hb] at h; simpa using h
      simp [replaceAllF, hb, ih rest hrest]

theorem replaceAll_of_occ_zero [DecidableEq α] (s r l : List α)
    (h : occCount s l = 0) : replaceAll s r l = l :=
  replaceAllF_of_occ_zero s r l.length l h

theorem replaceAllF_pos [DecidableEq α] (fuel : Nat) (c : α) (rest s r : List α)
    (hb : beginsWith s (c :: rest) = true) (hs : s ≠ []) :
    replaceAllF (fuel + 1) (c :: rest) s r =
      r ++ replaceAllF fuel ((c :: rest).drop s.length) s r := by
  have he : s.isEmpty = false := by
    cases s with
    | nil => exact absurd rfl hs
    | cons a s' => rfl
  simp [replaceAllF, hb, he]

theorem replaceAllF_neg [DecidableEq α] (fuel : Nat) (c : α) (rest s r : List α)
    (hb : beginsWith s (c :: rest) = false) :
    replaceAllF (fuel + 1) (c :: rest) s r = c :: replaceAllF fuel rest s r := by
  simp [replaceAllF, hb]

theorem replaceAllF_unique_occ [DecidableEq α] (s r : List α) (hs : s ≠ []) :
    ∀ (fuel : Nat) (pre post : List α),
      (pre ++ (s ++ post)).length ≤ fuel →
      occCount s (pre ++ (s ++ post)) = 1 →
      replaceAllF fuel (pre ++ (s ++ post)) s r = pre ++ (r ++ post) := by
  intro fuel
  induction fuel with
  | zero =>
    intro pre post hlen hocc
    exfalso
    simp only [List.length_append, Nat.le_zero] at hlen
    exact hs (List.length_eq_zero.mp (by omega))
  | succ fuel ih =>
    intro pre post hlen hocc
    cases pre with
    | nil =>
      simp only [List.nil_append] at hlen hocc ⊢
      obtain ⟨a, s', rfl⟩ : ∃ a s', s = a :: s' := by
        cases s with
        | nil => exact absurd rfl hs
        | cons a s' => exact ⟨a, s', rfl⟩
      rw [List.cons_append] at hlen hocc ⊢
      have hb : beginsWith (a :: s') (a :: (s' ++ post)) = true := by
        refine (beginsWith_iff _ _).mpr ⟨post, ?_⟩
        simp
      rw [replaceAllF_pos fuel a (s' ++ post) (a :: s') r hb hs]
      have hdrop : (a :: (s' ++ post)).drop (a :: s').length = post := by
        rw [← List.cons_append, List.drop_left]
      rw [hdrop]
      have htail : occCount (a :: s') (s' ++ post) = 0 := by
        simp only [occCount, hb, if_pos] at hocc
        omega
      have hpost : occCount (a :: s') post = 0 :=
        Nat.le_zero.mp (htail ▸ occCount_le_of_suffix _ post (s' ++ post) ⟨s', rfl⟩)
      rw [replaceAllF_of_occ_zero _ _ _ _ hpost]
    | cons c pre' =>
      rw [List.cons_append] at hlen hocc ⊢
      have hb : beginsWith s (c :: (pre' ++ (s ++ post))) = false := by
        cases hb : beginsWith s (c :: (pre' ++ (s ++ post))) with
        | false => rfl
        | true =>
          exfalso
          have hpos := occCount_pos_of_split s pre' post
          simp only [occCount, hb, if_pos] at hocc
          omega
      rw [replaceAllF_neg fuel c _ s r hb]
      have hocc' : occCount s (pre' ++ (s ++ post)) = 1 := by
        simp only [occCount, hb] at hocc
        simpa using hocc
      have hlen' : (pre' ++ (s ++ post)).length ≤ fuel := by
        simp only [List.length_cons] at hlen
        omega
      rw [ih pre' post hlen' hocc']
      rfl

theorem replaceAll_unique_occ [DecidableEq α] (s r l pre post : List α)
    (hs : s ≠ []) (hl : l = pre ++ (s ++ post)) (hocc : occCount s l = 1) :
    replaceAll s r l = pre ++ (r ++ post) := by
  subst hl
  exact replaceAllF_unique_occ s r hs _ pre post le_rfl hocc

/-! ### Filesystem lemmas -/

theorem fsLookup_fsSet_self (fs : FS) (q : FPath) (f : RFile) :
    fsLookup (fsSet fs q f) q = some f := by
  induction fs with
  | nil => simp [fsSet, fsLookup]
  | cons e rest ih =>
    by_cases h : e.1 = q
    · simp [fsSet, h, fsLookup]
    · simp only [fsSet, if_neg h, fsLookup]
      exact ih

theorem fsLookup_fsSet_ne (fs : FS) (q q' : FPath) (f : RFile) (h : q' ≠ q) :
    fsLookup (fsSet fs q f) q' = fsLookup fs q' := by
  induction fs with
  | nil => simp [fsSet, fsLookup, Ne.symm h]
  | cons e rest ih =>
    by_cases he : e.1 = q
    · simp [fsSet, he, fsLookup, Ne.symm h]
    · simp only [fsSet, if_neg he, fsLookup]
      rw [ih]

theorem mem_of_fsLookup (fs : FS) (q : FPath) (v : RFile)
    (h : fsLookup fs q = some v) : (q, v) ∈ fs := by
  induction fs with
  | nil => cases h
  | cons e rest ih =>
    simp only [fsLookup] at h
    by_cases he : e.1 = q
    · rw [if_pos he] at h
      injection h with h2
      obtain ⟨a, b⟩ := e
      simp only at he h2
      subst he; subst h2
      exact List.mem_cons_self _ _
    · rw [if_neg he] at h
      exact List.mem_cons_of_mem _ (ih h)

/-! ### Timestamps and backup names -/


theorem natDigitsF_val : ∀ (fuel n : Nat), n ≤ fuel →
    digitsVal (natDigitsF fuel n) = n := by
  intro fuel
  induction fuel with
  | zero =>
    intro n hn
    interval_cases n
    rfl
  | succ fuel ih =>
    intro n hn
    by_cases h : n = 0
    · subst h; simp [natDigitsF, digitsVal]
    · have hdiv : n / 10 ≤ fuel := by
        have := Nat.div_lt_self (Nat.pos_of_ne_zero h) (by omega : 1 < 10)
        omega
      simp only [natDigitsF, if_neg h, digitsVal]
      rw [ih _ hdiv]
      omega

theorem natDigits_val (n : Nat) : digitsVal (natDigits n) = n :=
  natDigitsF_val n n le_rfl

theorem natDigitsF_lt_ten : ∀ (fuel n d : Nat), d ∈ natDigitsF fuel n → d < 10 := by
  intro fuel
  induction fuel with
  | zero => intro n d h; cases h
  | succ fuel ih =>
    intro n d h
    by_cases hz : n = 0
    · subst hz; cases h
    · simp only [natDigitsF, if_neg hz] at h
      rcases List.mem_cons.mp h with h' | h'
      · subst h'; exact Nat.mod_lt _ (by omega)
      · exact ih _ _ h'

theorem digitChar_inj_lt : ∀ d < 10, ∀ e < 10,
    Nat.digitChar d = Nat.digitChar e → d = e := by decide

theorem digitChar_ne_slash : ∀ d < 10, Nat.digitChar d ≠ '/' := by decide

theorem map_digitChar_inj : ∀ (xs ys : List Nat),
    (∀ d ∈ xs, d < 10) → (∀ d ∈ ys, d < 10) →
    xs.map Nat.digitChar = ys.map Nat.digitChar → xs = ys := by
  intro xs
  induction xs with
  | nil =>
    intro ys _ _ h
    cases ys with
    | nil => rfl
    | cons y ys => simp at h
  | cons x xs ih =>
    intro ys hx hy h
    cases ys with
    | nil => simp at h
    | cons y ys =>
      simp only [List.map_cons, List.cons.injEq] at h
      have hxy : x = y :=
        digitChar_inj_lt x (hx x (List.mem_cons_self _ _)) y (hy y (List.mem_cons_self _ _)) h.1
      have hrest : xs = ys :=
        ih ys (fun d hd => hx d (List.mem_cons_of_mem _ hd))
          (fun d hd => hy d (List.mem_cons_of_mem _ hd)) h.2
      rw [hxy, hrest]

theorem stamp_inj (m n : Nat) (h : stamp m = stamp n) : m = n := by
  have h1 : (natDigits m).map Nat.digitChar = (natDigits n).map Nat.digitChar := by
    have := congrArg List.reverse h
    simpa [stamp, List.map_reverse] using this
  have h2 : natDigits m = natDigits n :=
    map_digitChar_inj _ _ (fun d hd => natDigitsF_lt_ten _ _ _ hd)
      (fun d hd => natDigitsF_lt_ten _ _ _ hd) h1
  have h3 := congrArg digitsVal h2
  rwa [natDigits_val, natDigits_val] at h3

theorem slash_not_in_stamp (t : Nat) : '/' ∉ stamp t := by
  intro h
  simp only [stamp, List.mem_map, List.mem_reverse] at h
  rcases h with ⟨d, hd, hdc⟩
  exact digitChar_ne_slash d (natDigitsF_lt_ten _ _ _ hd) hdc

theorem slash_not_in_backupSep : '/' ∉ backupSep := by decide

theorem bname_inj (p : FPath) (t t' : Nat) (h : bname p t = bname p t') : t = t' := by
  simp only [bname] at h
  exact stamp_inj t t' (List.append_cancel_left h)

theorem bname_ne_self (p : FPath) (t : Nat) : bname p t ≠ p := by
  intro h
  have := congrArg List.length h
  simp [bname, backupSep, List.length_append] at this

/-! ### Directory splitting and backup membership -/

theorem dirBase_append_noslash (p sfx : FPath) (h : '/' ∉ sfx) :
    dirBase (p ++ sfx) = ((dirBase p).1, (dirBase p).2 ++ sfx) := by
  induction p with
  | nil =>
    cases sfx with
    | nil => rfl
    | cons c rest =>
      have h1 : '/' ∉ rest := fun hh => h (List.mem_cons_of_mem _ hh)
      have h2 : ¬(c = '/') := fun hh => h (List.mem_cons.mpr (Or.inl hh.symm))
      simp [dirBase, h1, h2]
  | cons c p' ih =>
    by_cases hs : '/' ∈ p'
    · have hs2 : '/' ∈ p' ++ sfx := List.mem_append_left _ hs
      simp [List.cons_append, dirBase, hs, hs2, ih]
    · have hs2 : '/' ∉ p' ++ sfx := by
        intro hh
        rcases List.mem_append.mp hh with h' | h'
        · exact hs h'
        · exact h h'
      by_cases hc : c = '/'
      · simp [List.cons_append, dirBase, hs, hs2, hc]
      · simp [List.cons_append, dirBase, hs, hs2, hc]

theorem slash_not_in_bsuffix (t : Nat) : '/' ∉ backupSep ++ stamp t := by
  intro hh
  rcases List.mem_append.mp hh with h' | h'
  · exact slash_not_in_backupSep h'
  · exact slash_not_in_stamp t h'

theorem dirBase_bname (p : FPath) (t : Nat) :
    dirBase (bname p t) = ((dirBase p).1, (dirBase p).2 ++ (backupSep ++ stamp t)) := by
  rw [bname, List.append_assoc]
  exact dirBase_append_noslash p _ (slash_not_in_bsuffix t)

theorem isBackupOf_bname (p : FPath) (t : Nat) : isBackupOf p (bname p t) = true := by
  have hb : beginsWith ((dirBase p).2 ++ backupSep)
      ((dirBase p).2 ++ (backupSep ++ stamp t)) = true :=
    (beginsWith_iff _ _).mpr ⟨stamp t, by rw [List.append_assoc]⟩
  simp [isBackupOf, dirBase_bname, hb]

theorem isBackupOf_self_false (p : FPath) : isBackupOf p p = false := by
  unfold isBackupOf
  cases hb : beginsWith ((dirBase p).2 ++ backupSep) (dirBase p).2 with
  | false => simp [hb]
  | true =>
    exfalso
    obtain ⟨tl, htl⟩ := (beginsWith_iff _ _).mp hb
    have := congrArg List.length htl
    simp only [List.length_append, backupSep, List.length_cons, List.length_nil] at this
    omega

/-! ### Backup-entry bookkeeping -/

theorem backupEntries_fsSet_not (fs : FS) (p q : FPath) (f : RFile)
    (h : isBackupOf p q = false) :
    backupEntries (fsSet fs q f) p = backupEntries fs p := by
  induction fs with
  | nil => simp [fsSet, backupEntries, List.filter, h]
  | cons e rest ih =>
    by_cases he : e.1 = q
    · have hpe : isBackupOf p e.1 = false := by rw [he]; exact h
      simp [fsSet, he, backupEntries, List.filter_cons, h, hpe]
    · simp only [fsSet, if_neg he]
      show List.filter _ (e :: fsSet rest q f) = List.filter _ (e :: rest)
      rw [List.filter_cons, List.filter_cons]
      have ih' : List.filter (fun e => isBackupOf p e.1) (fsSet rest q f) =
          List.filter (fun e => isBackupOf p e.1) rest := ih
      rw [ih']

theorem backupEntries_fsSet_new (fs : FS) (p q : FPath) (f : RFile)
    (hq : isBackupOf p q = true) (habs : fsLookup fs q = none) :
    backupEntries (fsSet fs q f) p = backupEntries fs p ++ [(q, f)] := by
  induction fs with
  | nil => simp [fsSet, backupEntries, List.filter, hq]
  | cons e rest ih =>
    have he : ¬(e.1 = q) := by
      intro hh
      simp only [fsLookup, if_pos hh] at habs
      exact Option.noConfusion habs
    simp only [fsLookup, if_neg he] at habs
    simp only [fsSet, if_neg he, backupEntries, List.filter_cons]
    have ih' : List.filter (fun e => isBackupOf p e.1) (fsSet rest q f) =
        List.filter (fun e => isBackupOf p e.1) rest ++ [(q, f)] := ih habs
    by_cases hbe : isBackupOf p e.1 = true
    · simp [hbe, ih']
    · simp only [Bool.not_eq_true] at hbe
      simp [hbe, ih']

theorem backupEntries_fsRemove (fs : FS) (p q : FPath) :
    backupEntries (fsRemove fs q) p =
      (backupEntries fs p).filter (fun e => decide (e.1 ≠ q)) := by
  simp only [backupEntries, fsRemove, List.filter_filter]
  exact List.filter_congr (fun e _ => by rw [Bool.and_comm])

theorem fsLookup_fsRemove_ne (fs : FS) (q q' : FPath) (h : q' ≠ q) :
    fsLookup (fsRemove fs q) q' = fsLookup fs q' := by
  induction fs with
  | nil => rfl
  | cons e rest ih =>
    simp only [fsRemove, List.filter_cons] at ih ⊢
    by_cases he : e.1 = q
    · rw [if_neg (by simp [he])]
      rw [ih]
      simp only [fsLookup]
      rw [if_neg (by intro hh; exact h (hh ▸ he))]
    · rw [if_pos (by simp [he])]
      simp only [fsLookup]
      rw [ih]

/-! ### Sorting and cleanup -/

theorem insertByMtime_length (x : FPath × Nat) (l : List (FPath × Nat)) :
    (insertByMtime x l).length = l.length + 1 := by
  induction l with
  | nil => rfl
  | cons y rest ih =>
    simp only [insertByMtime]
    split
    · simp [ih]
    · simp

theorem sortByMtime_length (l : List (FPath × Nat)) :
    (sortByMtime l).length = l.length := by
  induction l with
  | nil => rfl
  | cons x rest ih => simp [sortByMtime, insertByMtime_length, ih]

theorem sortByMtime_three (x y z : FPath × Nat)
    (h1 : x.2 < y.2) (h2 : y.2 < z.2) :
    sortByMtime [x, y, z] = [x, y, z] := by
  have hzy : ¬(z.2 < y.2) := by omega
  have hyx : ¬(y.2 < x.2) := by omega
  simp [sortByMtime, insertByMtime, hzy, hyx]

theorem cleanup_of_le_two (fs : FS) (p : FPath)
    (h : (backupEntries fs p).length ≤ 2) :
    cleanup_old_backups fs p 2 = fs := by
  unfold cleanup_old_backups
  cases hl : fsLookup fs p with
  | none => rfl
  | some f =>
    have hlen : (sortByMtime ((backupEntries fs p).map (fun e => (e.1, e.2.mtime)))).length ≤ 2 := by
      rw [sortByMtime_length, List.length_map]
      exact h
    simp only []
    rw [show (sortByMtime ((backupEntries fs p).map fun e => (e.1, e.2.mtime))).length - 2 = 0 by omega]
    rfl

theorem cleanup_three (fs : FS) (p q1 q2 q3 : FPath) (f1 f2 f3 fcur : RFile)
    (hl : fsLookup fs p = some fcur)
    (hb : backupEntries fs p = [(q1, f1), (q2, f2), (q3, f3)])
    (h12 : f1.mtime < f2.mtime) (h23 : f2.mtime < f3.mtime) :
    cleanup_old_backups fs p 2 = fsRemove fs q1 := by
  unfold cleanup_old_backups
  rw [hl, hb]
  simp only [List.map_cons, List.map_nil]
  rw [sortByMtime_three (q1, f1.mtime) (q2, f2.mtime) (q3, f3.mtime) h12 h23]
  rfl

/-! ### Reduction lemmas for `safe_replace_in_file` -/


theorem safe_replace_unfold (D : DBCS) (t : Nat) (fs : FS) (p : FPath)
    (s r : List Nat) (f : RFile)
    (hf : fsLookup fs p = some f) (hs : s ≠ []) (hr : r ≠ []) :
    safe_replace_in_file D t fs p s r =
      (match safeReplaceCore D t (fsSet fs (bname p t) ⟨f.content, f.mtime⟩) p s r
          (detect_file_encoding D fs p).1 with
       | .ok result => result
       | .error fsE =>
          match fsLookup fsE (bname p t) with
          | some b => (false, fsSet fsE p b)
          | none => (false, fsE)) := by
  unfold safe_replace_in_file backup_file
  rw [hf]
  rw [if_neg (by simp [hs, hr])]

theorem core_notfound_encfail (D : DBCS) (t : Nat) (fs1 : FS) (p : FPath)
    (s r : List Nat) (enc : String) (fc : List Nat) (fm : Nat)
    (hf1 : fsLookup fs1 p = some ⟨fc, fm⟩)
    (htext : hasSub s (readText D enc fc) = false)
    (henc : utf8Encode s = none) :
    safeReplaceCore D t fs1 p s r enc = .error fs1 := by
  unfold safeReplaceCore
  rw [hf1]
  simp only [htext, henc, Bool.false_eq_true, if_false]

theorem core_notfound (D : DBCS) (t : Nat) (fs1 : FS) (p : FPath)
    (s r : List Nat) (enc : String) (fc : List Nat) (fm : Nat) (sb : List Nat)
    (hf1 : fsLookup fs1 p = some ⟨fc, fm⟩)
    (htext : hasSub s (readText D enc fc) = false)
    (hsb : utf8Encode s = some sb) (hmiss : hasSub sb fc = false) :
    safeReplaceCore D t fs1 p s r enc = .ok (false, fs1) := by
  unfold safeReplaceCore
  rw [hf1]
  simp only [htext, hsb, hmiss, Bool.false_eq_true, if_false]

theorem core_binary_success (D : DBCS) (t : Nat) (fs1 : FS) (p : FPath)
    (s r : List Nat) (enc : String) (fc : List Nat) (fm : Nat) (sb rb : List Nat)
    (hf1 : fsLookup fs1 p = some ⟨fc, fm⟩)
    (htext : hasSub s (readText D enc fc) = false)
    (hsb : utf8Encode s = some sb) (hin : hasSub sb fc = true)
    (hrb : utf8Encode r = some rb) :
    safeReplaceCore D t fs1 p s r enc =
      .ok (true, fsSet fs1 p ⟨replaceAll sb rb fc, t⟩) := by
  unfold safeReplaceCore
  rw [hf1]
  simp only [htext, hsb, hin, hrb, Bool.false_eq_true, if_false, if_true]

theorem core_nochange (D : DBCS) (t : Nat) (fs1 : FS) (p : FPath)
    (s r : List Nat) (enc : String) (fc : List Nat) (fm : Nat)
    (hf1 : fsLookup fs1 p = some ⟨fc, fm⟩)
    (htext : hasSub s (readText D enc fc) = true)
    (hnc : replaceAll s r (readText D enc fc) = readText D enc fc) :
    safeReplaceCore D t fs1 p s r enc = .ok (false, fs1) := by
  unfold safeReplaceCore
  rw [hf1]
  simp only [htext, hnc, if_true, if_pos]

theorem core_text_success (D : DBCS) (t : Nat) (fs1 : FS) (p : FPath)
    (s r : List Nat) (enc : String) (fc : List Nat) (fm : Nat) (out : List Nat)
    (vraw : List Nat)
    (hf1 : fsLookup fs1 p = some ⟨fc, fm⟩)
    (htext : hasSub s (readText D enc fc) = true)
    (hnc : replaceAll s r (readText D enc fc) ≠ readText D enc fc)
    (hout : utf8Encode (replaceAll s r (readText D enc fc)) = some out)
    (hv : utf8Decode out = some vraw)
    (hver : hasSub r (univNewlines vraw) = true) :
    safeReplaceCore D t fs1 p s r enc = .ok (true, fsSet fs1 p ⟨out, t⟩) := by
  unfold safeReplaceCore
  rw [hf1]
  simp only [htext, if_true, if_neg hnc, hout, hv, hver]

/-- Shared helper: when the search text is found neither in the decoded
text nor (as UTF-8 bytes) in the raw bytes, the call fails and the target
file's entry is untouched. -/
theorem notFound_fails (D : DBCS) (t : Nat) (fs : FS) (p : FPath)
    (s r : List Nat) (f : RFile)
    (hf : fsLookup fs p = some f) (hs : s ≠ []) (hr : r ≠ [])
    (htext : hasSub s (readText D (detect_file_encoding D fs p).1 f.content) = false)
    (hbin : ∀ sb, utf8Encode s = some sb → hasSub sb f.content = false) :
    (safe_replace_in_file D t fs p s r).1 = false ∧
    fsLookup (safe_replace_in_file D t fs p s r).2 p = some f := by
  obtain ⟨fc, fm⟩ := f
  have hne : p ≠ bname p t := Ne.symm (bname_ne_self p t)
  have hf1 : fsLookup (fsSet fs (bname p t) ⟨fc, fm⟩) p = some ⟨fc, fm⟩ := by
    rw [fsLookup_fsSet_ne _ _ _ _ hne]
    exact hf
  rw [safe_replace_unfold D t fs p s r ⟨fc, fm⟩ hf hs hr]
  cases henc : utf8Encode s with
  | none =>
    rw [core_notfound_encfail D t _ p s r _ fc fm hf1 htext henc]
    simp [fsLookup_fsSet_self]
  | some sb =>
    rw [core_notfound D t _ p s r _ fc fm sb hf1 htext henc (hbin sb henc)]
    exact ⟨rfl, hf1⟩

/-! ### Claim C2 -/

/-- C2: for every file and every search string that occurs neither in the
decoded text of the file nor as its UTF-8-encoded byte pattern in the raw
file bytes, `safe_replace_in_file` returns failure and the target file's
entry (content and modification time) is byte-for-byte unchanged. -/
theorem spec_c2_not_found_unchanged (D : DBCS) (t : Nat) (fs : FS) (p : FPath)
    (s r : List Nat) (f : RFile)
    (hf : fsLookup fs p = some f) (hs : s ≠ []) (hr : r ≠ [])
    (htext : hasSub s (readText D (detect_file_encoding D fs p).1 f.content) = false)
    (hbin : ∀ sb, utf8Encode s = some sb → hasSub sb f.content = false) :
    (safe_replace_in_file D t fs p s r).1 = false ∧
    fsLookup (safe_replace_in_file D t fs p s r).2 p = some f :=
  notFound_fails D t fs p s r f hf hs hr htext hbin

theorem spec_c2_witness :
    (safe_replace_in_file dbcsStub 3 [(['d', '/', 'f'], ⟨[120, 121, 122], 0⟩)]
        ['d', '/', 'f'] [119] [50]).1 = false ∧
    fsLookup (safe_replace_in_file dbcsStub 3 [(['d', '/', 'f'], ⟨[120, 121, 122], 0⟩)]
        ['d', '/', 'f'] [119] [50]).2 ['d', '/', 'f'] = some ⟨[120, 121, 122], 0⟩ :=
  spec_c2_not_found_unchanged dbcsStub 3 _ _ _ _ ⟨[120, 121, 122], 0⟩
    (by decide) (by decide) (by decide) (by decide)
    (fun sb hsb => by
      have h0 : utf8Encode [119] = some [119] := by decide
      rw [h0] at hsb
      injection hsb with h1
      subst h1
      decide)

/-! ### Claim C4 -/

/-- Shared helper: the precondition checks fail with no side effect. -/
theorem guard_fails (D : DBCS) (t : Nat) (fs : FS) (p : FPath)
    (s r : List Nat) (h : fsLookup fs p = none ∨ s = [] ∨ r = []) :
    safe_replace_in_file D t fs p s r = (false, fs) := by
  unfold safe_replace_in_file
  cases hf : fsLookup fs p with
  | none => rfl
  | some f =>
    rcases h with h | h
    · rw [hf] at h
      cases h
    · simp only [if_pos h]

/-- C4: when the target file does not exist, or the search string is
empty, or the replacement string is empty, `safe_replace_in_file` fails
immediately and the filesystem is returned entirely unchanged (no backup,
no modification). -/
theorem spec_c4_preconditions (D : DBCS) (t : Nat) (fs : FS) (p : FPath)
    (s r : List Nat) (h : fsLookup fs p = none ∨ s = [] ∨ r = []) :
    safe_replace_in_file D t fs p s r = (false, fs) :=
  guard_fails D t fs p s r h

theorem spec_c4_witness :
    safe_replace_in_file dbcsStub 0 [] ['x'] [1] [2] = (false, []) :=
  spec_c4_preconditions dbcsStub 0 [] ['x'] [1] [2] (Or.inl (by decide))

/-! ### Claim C7 -/

/-- C7, counterexample: the claimed fallback order (BOM first, then UTF-8
validity) disagrees with the code on raw bytes that are a bare BOM, which
are both BOM-prefixed and valid UTF-8: the code returns
`('utf-8', 'low')`, the claimed order returns `('utf-8-sig', 'medium')`. -/
theorem spec_c7_counterexample :
    binaryFallback [0xEF, 0xBB, 0xBF] = ("utf-8", "low") ∧
    binaryFallbackClaimed [0xEF, 0xBB, 0xBF] = ("utf-8-sig", "medium") ∧
    binaryFallback [0xEF, 0xBB, 0xBF] ≠ binaryFallbackClaimed [0xEF, 0xBB, 0xBF] := by
  refine ⟨?_, ?_, ?_⟩ <;> decide

/-- C7, amended: the binary fallback first checks whether the raw bytes
are valid UTF-8 (returning `('utf-8', 'low')`), otherwise checks for a
UTF-8 BOM prefix (returning `('utf-8-sig', 'medium')`), and otherwise
defaults to `('latin-1', 'lowest')`. -/
theorem spec_c7_amended (raw : List Nat) :
    ((utf8Decode raw).isSome = true → binaryFallback raw = ("utf-8", "low")) ∧
    ((utf8Decode raw).isSome = false → beginsWith bomBytes raw = true →
        binaryFallback raw = ("utf-8-sig", "medium")) ∧
    ((utf8Decode raw).isSome = false → beginsWith bomBytes raw = false →
        binaryFallback raw = ("latin-1", "lowest")) := by
  unfold binaryFallback
  refine ⟨fun h => ?_, fun h1 h2 => ?_, fun h1 h2 => ?_⟩
  · rw [if_pos h]
  · rw [if_neg (by simp [h1]), if_pos h2]
  · rw [if_neg (by simp [h1]), if_neg (by simp [h2])]

theorem spec_c7_amended_witness :
    (utf8Decode [0xC0]).isSome = false ∧ beginsWith bomBytes [0xC0] = false ∧
    binaryFallback [0xC0] = ("latin-1", "lowest") :=
  ⟨by decide, by decide, (spec_c7_amended [0xC0]).2.2 (by decide) (by decide)⟩

/-! ### Claim C8 -/

theorem detectLoop_mem (D : DBCS) (bytes : List Nat) :
    ∀ (L : List String) (e c : String), detectLoop D bytes L = some (e, c) →
      e ∈ L ∧ (c = "high" ∨ c = "medium") := by
  intro L
  induction L with
  | nil =>
    intro e c h
    cases h
  | cons enc rest ih =>
    intro e c h
    simp only [detectLoop] at h
    cases htc : tryCandidate D enc bytes with
    | none =>
      rw [htc] at h
      rcases ih e c h with ⟨h1, h2⟩
      exact ⟨List.mem_cons_of_mem _ h1, h2⟩
    | some result =>
      rw [htc] at h
      injection h with h'
      cases hd : decodeStrict D enc bytes with
      | none =>
        simp only [tryCandidate, hd] at htc
        exact Option.noConfusion htc
      | some text =>
        simp only [tryCandidate, hd] at htc
        split at htc
        · injection htc with htc'
          have hec : (enc, "high") = (e, c) := htc'.trans h'
          injection hec with he hc
          constructor
          · rw [← he]
            exact List.mem_cons_self _ _
          · exact Or.inl hc.symm
        · injection htc with htc'
          have hec : (enc, "medium") = (e, c) := htc'.trans h'
          injection hec with he hc
          constructor
          · rw [← he]
            exact List.mem_cons_self _ _
          · exact Or.inr hc.symm

theorem binaryFallback_mem (raw : List Nat) :
    (binaryFallback raw).1 ∈ encodingCandidates ∧
    (binaryFallback raw).2 ∈ ["high", "medium", "low", "lowest", "unknown"] := by
  constructor <;> (unfold binaryFallback; split_ifs <;> simp [encodingCandidates])

/-- C8: for every filesystem state and every path (existing file or not),
the encoding detector returns normally (it is a total function of the
model) and its result is a usable encoding name from the candidate list
together with one of the confidence labels. -/
theorem detect_eq_of_lookup (D : DBCS) (fs : FS) (p : FPath) (f : RFile)
    (hf : fsLookup fs p = some f) :
    detect_file_encoding D fs p =
      (match detectLoop D f.content encodingCandidates with
       | some result => result
       | none => binaryFallback (f.content.take 4096)) := by
  unfold detect_file_encoding
  rw [hf]

/-- C8: for every filesystem state and every path (existing file or not),
the encoding detector returns normally (it is a total function of the
model) and its result is a usable encoding name from the candidate list
together with one of the confidence labels. -/
theorem spec_c8_detector_total (D : DBCS) (fs : FS) (p : FPath) :
    (detect_file_encoding D fs p).1 ∈ encodingCandidates ∧
    (detect_file_encoding D fs p).2 ∈ ["high", "medium", "low", "lowest", "unknown"] := by
  cases hf : fsLookup fs p with
  | none =>
    have hd : detect_file_encoding D fs p = ("utf-8", "unknown") := by
      unfold detect_file_encoding
      rw [hf]
    rw [hd]
    exact ⟨by simp [encodingCandidates], by simp⟩
  | some f =>
    have hd := detect_eq_of_lookup D fs p f hf
    cases hdl : detectLoop D f.content encodingCandidates with
    | some result =>
      rw [hdl] at hd
      obtain ⟨e, c⟩ := result
      rw [hd]
      rcases detectLoop_mem D f.content encodingCandidates e c hdl with ⟨h1, h2⟩
      exact ⟨h1, by rcases h2 with h | h <;> simp [h]⟩
    | none =>
      rw [hdl] at hd
      rw [hd]
      exact binaryFallback_mem _

/-! ### Claim C9 -/

/-- C9: on the binary-fallback path (search string absent from the decoded
text, its UTF-8 bytes present in the raw bytes), the call replaces every
occurrence of the search bytes by the replacement bytes in the raw bytes,
writes the result back, and returns success — the final state is exactly
backup plus byte-level write, with no read-back verification step. -/
theorem spec_c9_binary_path (D : DBCS) (t : Nat) (fs : FS) (p : FPath)
    (s r : List Nat) (f : RFile) (sb rb : List Nat)
    (hf : fsLookup fs p = some f) (hs : s ≠ []) (hr : r ≠ [])
    (htext : hasSub s (readText D (detect_file_encoding D fs p).1 f.content) = false)
    (hsb : utf8Encode s = some sb) (hin : hasSub sb f.content = true)
    (hrb : utf8Encode r = some rb) :
    safe_replace_in_file D t fs p s r =
      (true, fsSet (fsSet fs (bname p t) ⟨f.content, f.mtime⟩) p
        ⟨replaceAll sb rb f.content, t⟩) := by
  obtain ⟨fc, fm⟩ := f
  have hf1 : fsLookup (fsSet fs (bname p t) ⟨fc, fm⟩) p = some ⟨fc, fm⟩ := by
    rw [fsLookup_fsSet_ne _ _ _ _ (Ne.symm (bname_ne_self p t))]
    exact hf
  rw [safe_replace_unfold D t fs p s r ⟨fc, fm⟩ hf hs hr]
  rw [core_binary_success D t _ p s r _ fc fm sb rb hf1 htext hsb hin hrb]

theorem spec_c9_witness :
    safe_replace_in_file dbcsStub 10 [(['d', '/', 'f'], ⟨[195, 169, 255], 5⟩)]
        ['d', '/', 'f'] [233] [88] =
      (true, fsSet (fsSet [(['d', '/', 'f'], ⟨[195, 169, 255], 5⟩)]
        (bname ['d', '/', 'f'] 10) ⟨[195, 169, 255], 5⟩) ['d', '/', 'f']
        ⟨replaceAll [195, 169] [88] [195, 169, 255], 10⟩) :=
  spec_c9_binary_path dbcsStub 10 _ _ _ _ ⟨[195, 169, 255], 5⟩ [195, 169] [88]
    (by decide) (by decide) (by decide) (by decide) (by decide) (by decide) (by decide)

/-! ### Claim C10 -/

/-- C10: on an existing file with non-empty search and replacement
strings, a timestamped backup (content and modification time of the
original) is created before the search is attempted; when the operation
then fails because the search text is not found or the substitution
produced no change, the loop body performs no backup pruning, so the
final state is exactly the original filesystem plus that backup, which
remains on disk. -/
theorem spec_c10_backup_survives_failure (D : DBCS) (t : Nat) (fs : FS) (p : FPath)
    (s r : List Nat) (f : RFile)
    (hf : fsLookup fs p = some f) (hs : s ≠ []) (hr : r ≠ [])
    (hfail :
      (∃ sb, utf8Encode s = some sb ∧
        hasSub s (readText D (detect_file_encoding D fs p).1 f.content) = false ∧
        hasSub sb f.content = false) ∨
      (hasSub s (readText D (detect_file_encoding D fs p).1 f.content) = true ∧
        replaceAll s r (readText D (detect_file_encoding D fs p).1 f.content) =
          readText D (detect_file_encoding D fs p).1 f.content)) :
    runOp D t fs ⟨p, s, r⟩ = (false, fsSet fs (bname p t) ⟨f.content, f.mtime⟩) ∧
    fsLookup (runOp D t fs ⟨p, s, r⟩).2 (bname p t) = some ⟨f.content, f.mtime⟩ := by
  obtain ⟨fc, fm⟩ := f
  have hf1 : fsLookup (fsSet fs (bname p t) ⟨fc, fm⟩) p = some ⟨fc, fm⟩ := by
    rw [fsLookup_fsSet_ne _ _ _ _ (Ne.symm (bname_ne_self p t))]
    exact hf
  have hsr : safe_replace_in_file D t fs p s r =
      (false, fsSet fs (bname p t) ⟨fc, fm⟩) := by
    rw [safe_replace_unfold D t fs p s r ⟨fc, fm⟩ hf hs hr]
    rcases hfail with ⟨sb, hsb, htext, hmiss⟩ | ⟨htext, hnc⟩
    · rw [core_notfound D t _ p s r _ fc fm sb hf1 htext hsb hmiss]
    · rw [core_nochange D t _ p s r _ fc fm hf1 htext hnc]
  have hro : runOp D t fs ⟨p, s, r⟩ = (false, fsSet fs (bname p t) ⟨fc, fm⟩) := by
    unfold runOp
    rw [hsr]
  refine ⟨hro, ?_⟩
  rw [hro]
  exact fsLookup_fsSet_self _ _ _

theorem spec_c10_witness :
    runOp dbcsStub 1 [(['d', '/', 'f'], ⟨[120], 0⟩)] ⟨['d', '/', 'f'], [120], [120]⟩ =
      (false, fsSet [(['d', '/', 'f'], ⟨[120], 0⟩)] (bname ['d', '/', 'f'] 1) ⟨[120], 0⟩) ∧
    fsLookup (runOp dbcsStub 1 [(['d', '/', 'f'], ⟨[120], 0⟩)]
        ⟨['d', '/', 'f'], [120], [120]⟩).2 (bname ['d', '/', 'f'] 1) = some ⟨[120], 0⟩ :=
  spec_c10_backup_survives_failure dbcsStub 1 _ _ _ _ ⟨[120], 0⟩
    (by decide) (by decide) (by decide) (Or.inr ⟨by decide, by decide⟩)

/-! ### Claim C3 -/

theorem core_text_encfail (D : DBCS) (t : Nat) (fs1 : FS) (p : FPath)
    (s r : List Nat) (enc : String) (fc : List Nat) (fm : Nat)
    (hf1 : fsLookup fs1 p = some ⟨fc, fm⟩)
    (htext : hasSub s (readText D enc fc) = true)
    (hnc : replaceAll s r (readText D enc fc) ≠ readText D enc fc)
    (hout : utf8Encode (replaceAll s r (readText D enc fc)) = none) :
    safeReplaceCore D t fs1 p s r enc = .error fs1 := by
  unfold safeReplaceCore
  rw [hf1]
  simp only [htext, if_true, if_neg hnc, hout]

theorem core_text_vdecodefail (D : DBCS) (t : Nat) (fs1 : FS) (p : FPath)
    (s r : List Nat) (enc : String) (fc : List Nat) (fm : Nat) (out : List Nat)
    (hf1 : fsLookup fs1 p = some ⟨fc, fm⟩)
    (htext : hasSub s (readText D enc fc) = true)
    (hnc : replaceAll s r (readText D enc fc) ≠ readText D enc fc)
    (hout : utf8Encode (replaceAll s r (readText D enc fc)) = some out)
    (hv : utf8Decode out = none) :
    safeReplaceCore D t fs1 p s r enc = .error (fsSet fs1 p ⟨out, t⟩) := by
  unfold safeReplaceCore
  rw [hf1]
  simp only [htext, if_true, if_neg hnc, hout, hv]

theorem core_text_verifyfail (D : DBCS) (t : Nat) (fs1 : FS) (p : FPath)
    (s r : List Nat) (enc : String) (fc : List Nat) (fm : Nat)
    (out vraw : List Nat)
    (hf1 : fsLookup fs1 p = some ⟨fc, fm⟩)
    (htext : hasSub s (readText D enc fc) = true)
    (hnc : replaceAll s r (readText D enc fc) ≠ readText D enc fc)
    (hout : utf8Encode (replaceAll s r (readText D enc fc)) = some out)
    (hv : utf8Decode out = some vraw)
    (hver : hasSub r (univNewlines vraw) = false) :
    safeReplaceCore D t fs1 p s r enc = .error (fsSet fs1 p ⟨out, t⟩) := by
  unfold safeReplaceCore
  rw [hf1]
  simp only [htext, if_true, if_neg hnc, hout, hv, hver, Bool.false_eq_true, if_false]

theorem core_binary_rencfail (D : DBCS) (t : Nat) (fs1 : FS) (p : FPath)
    (s r : List Nat) (enc : String) (fc : List Nat) (fm : Nat) (sb : List Nat)
    (hf1 : fsLookup fs1 p = some ⟨fc, fm⟩)
    (htext : hasSub s (readText D enc fc) = false)
    (hsb : utf8Encode s = some sb) (hin : hasSub sb fc = true)
    (hrb : utf8Encode r = none) :
    safeReplaceCore D t fs1 p s r enc = .error fs1 := by
  unfold safeReplaceCore
  rw [hf1]
  simp only [htext, hsb, hin, hrb, Bool.false_eq_true, if_false, if_true]

/-- An exception raised inside the `try` block never touches any path
other than the target file: the error-state filesystem agrees with the
entry state everywhere else (in particular on the backup file). -/
theorem core_error_lookup (D : DBCS) (t : Nat) (fs1 : FS) (p : FPath)
    (s r : List Nat) (enc : String) (fsE : FS) (q : FPath) (hq : q ≠ p)
    (h : safeReplaceCore D t fs1 p s r enc = .error fsE) :
    fsLookup fsE q = fsLookup fs1 q := by
  cases hf1 : fsLookup fs1 p with
  | none =>
    unfold safeReplaceCore at h
    rw [hf1] at h
    injection h with h'
    rw [← h']
  | some f =>
    obtain ⟨fc, fm⟩ := f
    cases htext : hasSub s (readText D enc fc) with
    | true =>
      by_cases hnc : replaceAll s r (readText D enc fc) = readText D enc fc
      · rw [core_nochange D t fs1 p s r enc fc fm hf1 htext hnc] at h
        exact Except.noConfusion h
      · cases hout : utf8Encode (replaceAll s r (readText D enc fc)) with
        | none =>
          rw [core_text_encfail D t fs1 p s r enc fc fm hf1 htext hnc hout] at h
          injection h with h'
          rw [← h']
        | some out =>
          cases hv : utf8Decode out with
          | none =>
            rw [core_text_vdecodefail D t fs1 p s r enc fc fm out hf1 htext hnc hout hv] at h
            injection h with h'
            rw [← h']
            exact fsLookup_fsSet_ne _ _ _ _ hq
          | some vraw =>
            cases hver : hasSub r (univNewlines vraw) with
            | true =>
              rw [core_text_success D t fs1 p s r enc fc fm out vraw
                hf1 htext hnc hout hv hver] at h
              exact Except.noConfusion h
            | false =>
              rw [core_text_verifyfail D t fs1 p s r enc fc fm out vraw
                hf1 htext hnc hout hv hver] at h
              injection h with h'
              rw [← h']
              exact fsLookup_fsSet_ne _ _ _ _ hq
    | false =>
      cases hsb : utf8Encode s with
      | none =>
        rw [core_notfound_encfail D t fs1 p s r enc fc fm hf1 htext hsb] at h
        injection h with h'
        rw [← h']
      | some sb =>
        cases hin : hasSub sb fc with
        | false =>
          rw [core_notfound D t fs1 p s r enc fc fm sb hf1 htext hsb hin] at h
          exact Except.noConfusion h
        | true =>
          cases hrb : utf8Encode r with
          | none =>
            rw [core_binary_rencfail D t fs1 p s r enc fc fm sb hf1 htext hsb hin hrb] at h
            injection h with h'
            rw [← h']
          | some rb =>
            rw [core_binary_success D t fs1 p s r enc fc fm sb rb
              hf1 htext hsb hin hrb] at h
            exact Except.noConfusion h

/-- Shared helper: an exception inside the `try` block makes the call
restore the target from the backup and return failure. -/
theorem rollback_of_core_error (D : DBCS) (t : Nat) (fs : FS) (p : FPath)
    (s r : List Nat) (f : RFile) (fsE : FS)
    (hf : fsLookup fs p = some f) (hs : s ≠ []) (hr : r ≠ [])
    (hcore : safeReplaceCore D t (fsSet fs (bname p t) ⟨f.content, f.mtime⟩) p s r
        (detect_file_encoding D fs p).1 = .error fsE) :
    safe_replace_in_file D t fs p s r = (false, fsSet fsE p ⟨f.content, f.mtime⟩) ∧
    fsLookup (safe_replace_in_file D t fs p s r).2 p = some ⟨f.content, f.mtime⟩ := by
  obtain ⟨fc, fm⟩ := f
  have hbp : fsLookup fsE (bname p t) = some ⟨fc, fm⟩ := by
    rw [core_error_lookup D t _ p s r _ fsE (bname p t) (bname_ne_self p t) hcore]
    exact fsLookup_fsSet_self _ _ _
  have hres : safe_replace_in_file D t fs p s r = (false, fsSet fsE p ⟨fc, fm⟩) := by
    rw [safe_replace_unfold D t fs p s r ⟨fc, fm⟩ hf hs hr, hcore]
    show (match fsLookup fsE (bname p t) with
          | some b => (false, fsSet fsE p b)
          | none => (false, fsE)) = (false, fsSet fsE p ⟨fc, fm⟩)
    rw [hbp]
  refine ⟨hres, ?_⟩
  rw [hres]
  exact fsLookup_fsSet_self _ _ _

/-- C3: any exception inside the read/substitute/write/verify block —
including the internal verification error — makes `safe_replace_in_file`
restore the target file from the backup taken at the start (so the target
entry again holds the original content and modification time) and return
failure, through the normal (non-raising) return path. -/
theorem spec_c3_exception_rollback (D : DBCS) (t : Nat) (fs : FS) (p : FPath)
    (s r : List Nat) (f : RFile) (fsE : FS)
    (hf : fsLookup fs p = some f) (hs : s ≠ []) (hr : r ≠ [])
    (hcore : safeReplaceCore D t (fsSet fs (bname p t) ⟨f.content, f.mtime⟩) p s r
        (detect_file_encoding D fs p).1 = .error fsE) :
    safe_replace_in_file D t fs p s r = (false, fsSet fsE p ⟨f.content, f.mtime⟩) ∧
    fsLookup (safe_replace_in_file D t fs p s r).2 p = some ⟨f.content, f.mtime⟩ :=
  rollback_of_core_error D t fs p s r f fsE hf hs hr hcore

theorem spec_c3_witness :
    safe_replace_in_file dbcsStub 1 [(['d', '/', 'f'], ⟨[120], 0⟩)]
        ['d', '/', 'f'] [120] [13] =
      (false, fsSet [(['d', '/', 'f'], ⟨[13], 1⟩),
        (bname ['d', '/', 'f'] 1, ⟨[120], 0⟩)] ['d', '/', 'f'] ⟨[120], 0⟩) ∧
    fsLookup (safe_replace_in_file dbcsStub 1 [(['d', '/', 'f'], ⟨[120], 0⟩)]
        ['d', '/', 'f'] [120] [13]).2 ['d', '/', 'f'] = some ⟨[120], 0⟩ :=
  spec_c3_exception_rollback dbcsStub 1 _ _ _ _ ⟨[120], 0⟩
    [(['d', '/', 'f'], ⟨[13], 1⟩), (bname ['d', '/', 'f'] 1, ⟨[120], 0⟩)]
    (by decide) (by decide) (by decide) rfl

/-! ### Claim C1 -/

/-- C1: the entry point requests zero operations exactly when all three
stripped environment values are empty, and in that case exits 0; when
operations are requested it exits 0 exactly if at least one succeeded and
exits 1 if every requested operation failed. -/
theorem spec_c1_exit_code (D : DBCS) (t : Nat) (fs : FS) (env : Env) :
    (buildOps (pyStrip env.relay) (pyStrip env.pubKey) (pyStrip env.apiUrl) = [] ↔
      (pyStrip env.relay = [] ∧ pyStrip env.pubKey = [] ∧ pyStrip env.apiUrl = [])) ∧
    ((pyStrip env.relay = [] ∧ pyStrip env.pubKey = [] ∧ pyStrip env.apiUrl = []) →
      (mainEntry D t fs env).1 = 0) ∧
    (¬(pyStrip env.relay = [] ∧ pyStrip env.pubKey = [] ∧ pyStrip env.apiUrl = []) →
      (0 < (runOps D t fs (buildOps (pyStrip env.relay) (pyStrip env.pubKey)
          (pyStrip env.apiUrl))).1 → (mainEntry D t fs env).1 = 0) ∧
      ((runOps D t fs (buildOps (pyStrip env.relay) (pyStrip env.pubKey)
          (pyStrip env.apiUrl))).1 = 0 → (mainEntry D t fs env).1 = 1)) := by
  refine ⟨?_, ?_, ?_⟩
  · constructor
    · intro h
      by_cases h1 : pyStrip env.relay = [] <;>
        by_cases h2 : pyStrip env.pubKey = [] <;>
          by_cases h3 : pyStrip env.apiUrl = [] <;>
            simp [buildOps, h1, h2, h3] at h ⊢
    · rintro ⟨h1, h2, h3⟩
      simp [buildOps, h1, h2, h3]
  · rintro ⟨h1, h2, h3⟩
    simp only [mainEntry]
    rw [if_pos ⟨h1, h2, h3⟩]
  · intro hne
    constructor
    · intro hpos
      simp only [mainEntry]
      rw [if_neg hne]
      cases hro : runOps D t fs (buildOps (pyStrip env.relay) (pyStrip env.pubKey)
          (pyStrip env.apiUrl)) with
      | mk cnt fs' =>
        rw [hro] at hpos
        show (if 0 < cnt then (0 : Nat) else 1) = 0
        rw [if_pos hpos]
    · intro hz
      simp only [mainEntry]
      rw [if_neg hne]
      cases hro : runOps D t fs (buildOps (pyStrip env.relay) (pyStrip env.pubKey)
          (pyStrip env.apiUrl)) with
      | mk cnt fs' =>
        rw [hro] at hz
        have hz' : cnt = 0 := hz
        show (if 0 < cnt then (0 : Nat) else 1) = 1
        rw [if_neg (by omega)]

theorem spec_c1_witness :
    (mainEntry dbcsStub 0 [] ⟨[], [32], []⟩).1 = 0 :=
  (spec_c1_exit_code dbcsStub 0 [] ⟨[], [32], []⟩).2.1 ⟨by decide, by decide, by decide⟩

/-! ### Claim C5 -/

/-- C5, counterexample: on a file whose decoded text is `"a"` (one byte
97), replacing `"a"` by `"aa"` succeeds, and immediately re-running with
the same arguments succeeds again — it does not return failure as
claimed, because the replacement reintroduced the search string. -/
theorem spec_c5_counterexample :
    occCount [97] (readText dbcsStub
      (detect_file_encoding dbcsStub [(['d', '/', 'f'], ⟨[97], 5⟩)] ['d', '/', 'f']).1
      [97]) = 1 ∧
    (safe_replace_in_file dbcsStub 10 [(['d', '/', 'f'], ⟨[97], 5⟩)]
      ['d', '/', 'f'] [97] [97, 97]).1 = true ∧
    (safe_replace_in_file dbcsStub 11
      (safe_replace_in_file dbcsStub 10 [(['d', '/', 'f'], ⟨[97], 5⟩)]
        ['d', '/', 'f'] [97] [97, 97]).2
      ['d', '/', 'f'] [97] [97, 97]).1 = true := by
  refine ⟨?_, ?_, ?_⟩ <;> decide

/-- C5, amended: for a file whose decoded text contains the search string
exactly once, a successful replace writes back exactly the UTF-8 encoding
of that text with the single occurrence replaced; and re-running with the
same arguments fails provided the search string does not occur in the
updated file (neither in its decoded text nor as its UTF-8 byte pattern)
— the unconditional "re-run fails" of the original claim is false when
the replacement text reintroduces the search string. -/
theorem spec_c5_amended (D : DBCS) (t t' : Nat) (fs : FS) (p : FPath)
    (s r : List Nat) (f : RFile) (pre post : List Nat)
    (hf : fsLookup fs p = some f) (hs : s ≠ []) (hr : r ≠ [])
    (hsplit : readText D (detect_file_encoding D fs p).1 f.content = pre ++ (s ++ post))
    (hocc : occCount s (readText D (detect_file_encoding D fs p).1 f.content) = 1)
    (hsucc : (safe_replace_in_file D t fs p s r).1 = true) :
    (∃ out, utf8Encode (pre ++ (r ++ post)) = some out ∧
      fsLookup (safe_replace_in_file D t fs p s r).2 p = some ⟨out, t⟩) ∧
    (∀ f', fsLookup (safe_replace_in_file D t fs p s r).2 p = some f' →
      hasSub s (readText D
        (detect_file_encoding D (safe_replace_in_file D t fs p s r).2 p).1
        f'.content) = false →
      (∀ sb, utf8Encode s = some sb → hasSub sb f'.content = false) →
      (safe_replace_in_file D t' (safe_replace_in_file D t fs p s r).2 p s r).1 = false) := by
  obtain ⟨fc, fm⟩ := f
  have hf1 : fsLookup (fsSet fs (bname p t) ⟨fc, fm⟩) p = some ⟨fc, fm⟩ := by
    rw [fsLookup_fsSet_ne _ _ _ _ (Ne.symm (bname_ne_self p t))]
    exact hf
  have htext : hasSub s (readText D (detect_file_encoding D fs p).1 fc) = true := by
    rw [hsplit]
    exact (hasSub_iff _ _).mpr ⟨pre, post, List.append_assoc pre s post⟩
  have hnew : replaceAll s r (readText D (detect_file_encoding D fs p).1 fc) =
      pre ++ (r ++ post) :=
    replaceAll_unique_occ s r _ pre post hs hsplit hocc
  by_cases hnc : replaceAll s r (readText D (detect_file_encoding D fs p).1 fc) =
      readText D (detect_file_encoding D fs p).1 fc
  · exfalso
    have hres : safe_replace_in_file D t fs p s r =
        (false, fsSet fs (bname p t) ⟨fc, fm⟩) := by
      rw [safe_replace_unfold D t fs p s r ⟨fc, fm⟩ hf hs hr,
        core_nochange D t _ p s r _ fc fm hf1 htext hnc]
    rw [hres] at hsucc
    exact Bool.noConfusion hsucc
  · cases hout : utf8Encode (replaceAll s r (readText D (detect_file_encoding D fs p).1 fc)) with
    | none =>
      exfalso
      have hres := (rollback_of_core_error D t fs p s r ⟨fc, fm⟩ _ hf hs hr
        (core_text_encfail D t _ p s r _ fc fm hf1 htext hnc hout)).1
      rw [hres] at hsucc
      exact Bool.noConfusion hsucc
    | some out =>
      cases hv : utf8Decode out with
      | none =>
        exfalso
        have hres := (rollback_of_core_error D t fs p s r ⟨fc, fm⟩ _ hf hs hr
          (core_text_vdecodefail D t _ p s r _ fc fm out hf1 htext hnc hout hv)).1
        rw [hres] at hsucc
        exact Bool.noConfusion hsucc
      | some vraw =>
        cases hver : hasSub r (univNewlines vraw) with
        | false =>
          exfalso
          have hres := (rollback_of_core_error D t fs p s r ⟨fc, fm⟩ _ hf hs hr
            (core_text_verifyfail D t _ p s r _ fc fm out vraw hf1 htext hnc hout hv hver)).1
          rw [hres] at hsucc
          exact Bool.noConfusion hsucc
        | true =>
          have hres : safe_replace_in_file D t fs p s r =
              (true, fsSet (fsSet fs (bname p t) ⟨fc, fm⟩) p ⟨out, t⟩) := by
            rw [safe_replace_unfold D t fs p s r ⟨fc, fm⟩ hf hs hr,
              core_text_success D t _ p s r _ fc fm out vraw hf1 htext hnc hout hv hver]
          constructor
          · refine ⟨out, ?_, ?_⟩
            · rw [← hnew]
              exact hout
            · rw [hres]
              exact fsLookup_fsSet_self _ _ _
          · intro f' hf' htext' hbin'
            exact (notFound_fails D t' _ p s r f' hf' hs hr htext' hbin').1

theorem spec_c5_amended_witness :
    (∃ out, utf8Encode ([] ++ ([98] ++ [])) = some out ∧
      fsLookup (safe_replace_in_file dbcsStub 10 [(['d', '/', 'f'], ⟨[97], 5⟩)]
        ['d', '/', 'f'] [97] [98]).2 ['d', '/', 'f'] = some ⟨out, 10⟩) ∧
    (∀ f', fsLookup (safe_replace_in_file dbcsStub 10 [(['d', '/', 'f'], ⟨[97], 5⟩)]
        ['d', '/', 'f'] [97] [98]).2 ['d', '/', 'f'] = some f' →
      hasSub [97] (readText dbcsStub
        (detect_file_encoding dbcsStub
          (safe_replace_in_file dbcsStub 10 [(['d', '/', 'f'], ⟨[97], 5⟩)]
            ['d', '/', 'f'] [97] [98]).2 ['d', '/', 'f']).1
        f'.content) = false →
      (∀ sb, utf8Encode [97] = some sb → hasSub sb f'.content = false) →
      (safe_replace_in_file dbcsStub 11
        (safe_replace_in_file dbcsStub 10 [(['d', '/', 'f'], ⟨[97], 5⟩)]
          ['d', '/', 'f'] [97] [98]).2 ['d', '/', 'f'] [97] [98]).1 = false) :=
  spec_c5_amended dbcsStub 10 11 _ _ [97] [98] ⟨[97], 5⟩ [] []
    (by decide) (by decide) (by decide) (by decide) (by decide) (by decide)

/-! ### Shape of a successful run (for backup retention) -/

theorem safe_replace_true_shape (D : DBCS) (t : Nat) (fs : FS) (p : FPath)
    (s r : List Nat) (h : (safe_replace_in_file D t fs p s r).1 = true) :
    ∃ f c', fsLookup fs p = some f ∧
      (safe_replace_in_file D t fs p s r).2 =
        fsSet (fsSet fs (bname p t) ⟨f.content, f.mtime⟩) p ⟨c', t⟩ := by
  cases hf : fsLookup fs p with
  | none =>
    rw [guard_fails D t fs p s r (Or.inl hf)] at h
    exact Bool.noConfusion h
  | some f =>
    obtain ⟨fc, fm⟩ := f
    by_cases hguard : s = [] ∨ r = []
    · rw [guard_fails D t fs p s r (Or.inr hguard)] at h
      exact Bool.noConfusion h
    · push_neg at hguard
      obtain ⟨hs, hr⟩ := hguard
      have hf1 : fsLookup (fsSet fs (bname p t) ⟨fc, fm⟩) p = some ⟨fc, fm⟩ := by
        rw [fsLookup_fsSet_ne _ _ _ _ (Ne.symm (bname_ne_self p t))]
        exact hf
      cases htext : hasSub s (readText D (detect_file_encoding D fs p).1 fc) with
      | true =>
        by_cases hnc : replaceAll s r (readText D (detect_file_encoding D fs p).1 fc) =
            readText D (detect_file_encoding D fs p).1 fc
        · rw [safe_replace_unfold D t fs p s r ⟨fc, fm⟩ hf hs hr,
            core_nochange D t _ p s r _ fc fm hf1 htext hnc] at h
          exact Bool.noConfusion h
        · cases hout : utf8Encode (replaceAll s r
              (readText D (detect_file_encoding D fs p).1 fc)) with
          | none =>
            rw [(rollback_of_core_error D t fs p s r ⟨fc, fm⟩ _ hf hs hr
              (core_text_encfail D t _ p s r _ fc fm hf1 htext hnc hout)).1] at h
            exact Bool.noConfusion h
          | some out =>
            cases hv : utf8Decode out with
            | none =>
              rw [(rollback_of_core_error D t fs p s r ⟨fc, fm⟩ _ hf hs hr
                (core_text_vdecodefail D t _ p s r _ fc fm out hf1 htext hnc hout hv)).1] at h
              exact Bool.noConfusion h
            | some vraw =>
              cases hver : hasSub r (univNewlines vraw) with
              | false =>
                rw [(rollback_of_core_error D t fs p s r ⟨fc, fm⟩ _ hf hs hr
                  (core_text_verifyfail D t _ p s r _ fc fm out vraw
                    hf1 htext hnc hout hv hver)).1] at h
                exact Bool.noConfusion h
              | true =>
                refine ⟨⟨fc, fm⟩, out, rfl, ?_⟩
                rw [safe_replace_unfold D t fs p s r ⟨fc, fm⟩ hf hs hr,
                  core_text_success D t _ p s r _ fc fm out vraw hf1 htext hnc hout hv hver]
      | false =>
        cases hsb : utf8Encode s with
        | none =>
          rw [(rollback_of_core_error D t fs p s r ⟨fc, fm⟩ _ hf hs hr
            (core_notfound_encfail D t _ p s r _ fc fm hf1 htext hsb)).1] at h
          exact Bool.noConfusion h
        | some sb =>
          cases hin : hasSub sb fc with
          | false =>
            rw [safe_replace_unfold D t fs p s r ⟨fc, fm⟩ hf hs hr,
              core_notfound D t _ p s r _ fc fm sb hf1 htext hsb hin] at h
            exact Bool.noConfusion h
          | true =>
            cases hrb : utf8Encode r with
            | none =>
              rw [(rollback_of_core_error D t fs p s r ⟨fc, fm⟩ _ hf hs hr
                (core_binary_rencfail D t _ p s r _ fc fm sb hf1 htext hsb hin hrb)).1] at h
              exact Bool.noConfusion h
            | some rb =>
              refine ⟨⟨fc, fm⟩, replaceAll sb rb fc, rfl, ?_⟩
              rw [safe_replace_unfold D t fs p s r ⟨fc, fm⟩ hf hs hr,
                core_binary_success D t _ p s r _ fc fm sb rb hf1 htext hsb hin hrb]

theorem runOp_true_shape (D : DBCS) (t : Nat) (fs : FS) (op : Oper)
    (h : (runOp D t fs op).1 = true) :
    ∃ f c', fsLookup fs op.file = some f ∧
      (runOp D t fs op).2 =
        cleanup_old_backups (fsSet (fsSet fs (bname op.file t) ⟨f.content, f.mtime⟩)
          op.file ⟨c', t⟩) op.file 2 := by
  cases hsr : safe_replace_in_file D t fs op.file op.search op.replace with
  | mk ok fs1 =>
    cases ok with
    | false =>
      exfalso
      have : runOp D t fs op = (false, fs1) := by
        unfold runOp
        rw [hsr]
      rw [this] at h
      exact Bool.noConfusion h
    | true =>
      have hsh := safe_replace_true_shape D t fs op.file op.search op.replace
        (by rw [hsr])
      obtain ⟨f, c', hf, hfs1⟩ := hsh
      rw [hsr] at hfs1
      have hfs1' : fs1 =
          fsSet (fsSet fs (bname op.file t) ⟨f.content, f.mtime⟩) op.file ⟨c', t⟩ := hfs1
      refine ⟨f, c', hf, ?_⟩
      have hro : runOp D t fs op = (true, cleanup_old_backups fs1 op.file 2) := by
        unfold runOp
        rw [hsr]
      rw [hro, hfs1']


theorem iterOp_front (D : DBCS) (op : Oper) (t n : Nat) (fs : FS) :
    iterOp D op t (n + 1) fs =
      ((if (runOp D t fs op).1 then 1 else 0) +
        (iterOp D op (t + 1) n (runOp D t fs op).2).1,
       (iterOp D op (t + 1) n (runOp D t fs op).2).2) := by
  simp only [iterOp]

theorem iterOp_succ_back (D : DBCS) (op : Oper) :
    ∀ (n t : Nat) (fs : FS),
      iterOp D op t (n + 1) fs =
        ((iterOp D op t n fs).1 +
          (if (runOp D (t + n) (iterOp D op t n fs).2 op).1 then 1 else 0),
         (runOp D (t + n) (iterOp D op t n fs).2 op).2) := by
  intro n
  induction n with
  | zero =>
    intro t fs
    rw [iterOp_front]
    simp [iterOp]
  | succ n ih =>
    intro t fs
    rw [iterOp_front D op t (n + 1) fs, ih (t + 1) (runOp D t fs op).2,
      iterOp_front D op t n fs]
    have harith : t + 1 + n = t + (n + 1) := by omega
    rw [harith, Nat.add_assoc]

theorem iterOp_count_le (D : DBCS) (op : Oper) :
    ∀ (n t : Nat) (fs : FS), (iterOp D op t n fs).1 ≤ n := by
  intro n
  induction n with
  | zero =>
    intro t fs
    exact Nat.le_refl 0
  | succ n ih =>
    intro t fs
    rw [iterOp_front]
    have hle := ih (t + 1) (runOp D t fs op).2
    cases h : (runOp D t fs op).1 <;> simp [h] <;> omega

theorem iterOp_all_succ (D : DBCS) (op : Oper) (n t : Nat) (fs : FS)
    (h : (iterOp D op t (n + 1) fs).1 = n + 1) :
    (iterOp D op t n fs).1 = n ∧
    (runOp D (t + n) (iterOp D op t n fs).2 op).1 = true := by
  rw [iterOp_succ_back D op n t fs] at h
  have hle := iterOp_count_le D op n t fs
  cases hlast : (runOp D (t + n) (iterOp D op t n fs).2 op).1 with
  | false =>
    rw [hlast] at h
    simp only [Bool.false_eq_true, if_false] at h
    omega
  | true =>
    rw [hlast] at h
    simp only [if_true] at h
    exact ⟨by omega, rfl⟩

theorem backupEntries_eq_nil (fs : FS) (p : FPath)
    (h : ∀ e ∈ fs, isBackupOf p e.1 = false) : backupEntries fs p = [] := by
  induction fs with
  | nil => rfl
  | cons e rest ih =>
    simp only [backupEntries, List.filter_cons]
    rw [if_neg (by simp [h e (List.mem_cons_self _ _)])]
    exact ih (fun e' he' => h e' (List.mem_cons_of_mem _ he'))

theorem lookup_bname_none_of_no_backups (fs : FS) (p : FPath) (t : Nat)
    (h : ∀ e ∈ fs, isBackupOf p e.1 = false) :
    fsLookup fs (bname p t) = none := by
  cases hl : fsLookup fs (bname p t) with
  | none => rfl
  | some v =>
    exfalso
    have hmem := mem_of_fsLookup _ _ _ hl
    have hfalse := h _ hmem
    rw [isBackupOf_bname] at hfalse
    exact Bool.noConfusion hfalse


theorem retention_step (D : DBCS) (op : Oper) (t0 k : Nat) (st : FS)
    (hk : 2 ≤ k)
    (inv : retentionInv op.file t0 k st)
    (hok : (runOp D (t0 + k) st op).1 = true) :
    retentionInv op.file t0 (k + 1) (runOp D (t0 + k) st op).2 := by
  obtain ⟨c, b1, b2, hlp, hbe, h12, h2t⟩ := inv
  obtain ⟨f, c', hf, hshape⟩ := runOp_true_shape D (t0 + k) st op hok
  rw [hlp] at hf
  injection hf with hf'
  have hfc : f.content = c := by rw [← hf']
  have hfm : f.mtime = t0 + k - 1 := by rw [← hf']
  rw [hfc, hfm] at hshape
  have hfresh : fsLookup st (bname op.file (t0 + k)) = none := by
    cases hl : fsLookup st (bname op.file (t0 + k)) with
    | none => rfl
    | some v =>
      exfalso
      have hmem : (bname op.file (t0 + k), v) ∈ backupEntries st op.file :=
        List.mem_filter.mpr ⟨mem_of_fsLookup _ _ _ hl, isBackupOf_bname _ _⟩
      rw [hbe] at hmem
      rcases List.mem_cons.mp hmem with he | he
      · have h1 := bname_inj _ _ _ (congrArg Prod.fst he)
        omega
      · rcases List.mem_cons.mp he with he2 | he2
        · have h1 := bname_inj _ _ _ (congrArg Prod.fst he2)
          omega
        · cases he2
  have hbeB : backupEntries (fsSet (fsSet st (bname op.file (t0 + k)) ⟨c, t0 + k - 1⟩)
      op.file ⟨c', t0 + k⟩) op.file =
      [(bname op.file (t0 + k - 2), b1), (bname op.file (t0 + k - 1), b2),
       (bname op.file (t0 + k), ⟨c, t0 + k - 1⟩)] := by
    rw [backupEntries_fsSet_not _ _ _ _ (isBackupOf_self_false op.file),
      backupEntries_fsSet_new _ _ _ _ (isBackupOf_bname _ _) hfresh, hbe]
    rfl
  have hlB : fsLookup (fsSet (fsSet st (bname op.file (t0 + k)) ⟨c, t0 + k - 1⟩)
      op.file ⟨c', t0 + k⟩) op.file = some ⟨c', t0 + k⟩ := fsLookup_fsSet_self _ _ _
  have h23 : b2.mtime < (⟨c, t0 + k - 1⟩ : RFile).mtime := by
    show b2.mtime < t0 + k - 1
    omega
  have hclean := cleanup_three _ op.file _ _ _ b1 b2 ⟨c, t0 + k - 1⟩ ⟨c', t0 + k⟩
    hlB hbeB h12 h23
  rw [hshape, hclean]
  have h1ne : bname op.file (t0 + k - 1) ≠ bname op.file (t0 + k - 2) := by
    intro h
    have := bname_inj _ _ _ h
    omega
  have h2ne : bname op.file (t0 + k) ≠ bname op.file (t0 + k - 2) := by
    intro h
    have := bname_inj _ _ _ h
    omega
  refine ⟨c', b2, ⟨c, t0 + k - 1⟩, ?_, ?_, ?_, ?_⟩
  · have harith : t0 + (k + 1) - 1 = t0 + k := by omega
    rw [harith, fsLookup_fsRemove_ne _ _ _ (Ne.symm (bname_ne_self _ _))]
    exact hlB
  · rw [backupEntries_fsRemove, hbeB]
    have harith1 : t0 + (k + 1) - 2 = t0 + k - 1 := by omega
    have harith2 : t0 + (k + 1) - 1 = t0 + k := by omega
    rw [harith1, harith2]
    simp [List.filter, h1ne, h2ne]
  · show b2.mtime < (⟨c, t0 + k - 1⟩ : RFile).mtime
    exact h23
  · show (⟨c, t0 + k - 1⟩ : RFile).mtime = t0 + (k + 1) - 2
    show t0 + k - 1 = t0 + (k + 1) - 2
    omega

theorem retention_base (D : DBCS) (op : Oper) (t0 : Nat) (fs0 : FS) (f0 : RFile)
    (hf0 : fsLookup fs0 op.file = some f0)
    (hm0 : f0.mtime < t0)
    (hnb : ∀ e ∈ fs0, isBackupOf op.file e.1 = false)
    (hsucc : (iterOp D op t0 2 fs0).1 = 2) :
    retentionInv op.file t0 2 (iterOp D op t0 2 fs0).2 := by
  obtain ⟨h1, hok1⟩ := iterOp_all_succ D op 1 t0 fs0 hsucc
  obtain ⟨_, hok0⟩ := iterOp_all_succ D op 0 t0 fs0 h1
  have hok0' : (runOp D t0 fs0 op).1 = true := hok0
  obtain ⟨fA, cA, hfA, hshA⟩ := runOp_true_shape D t0 fs0 op hok0'
  rw [hf0] at hfA
  injection hfA with hA
  have hAc : fA.content = f0.content := by rw [← hA]
  have hAm : fA.mtime = f0.mtime := by rw [← hA]
  rw [hAc, hAm] at hshA
  have hfreshA := lookup_bname_none_of_no_backups fs0 op.file t0 hnb
  have hbe0 := backupEntries_eq_nil fs0 op.file hnb
  have hbeB0 : backupEntries (fsSet (fsSet fs0 (bname op.file t0)
      ⟨f0.content, f0.mtime⟩) op.file ⟨cA, t0⟩) op.file =
      [(bname op.file t0, ⟨f0.content, f0.mtime⟩)] := by
    rw [backupEntries_fsSet_not _ _ _ _ (isBackupOf_self_false op.file),
      backupEntries_fsSet_new _ _ _ _ (isBackupOf_bname _ _) hfreshA, hbe0]
    rfl
  have hclean0 : cleanup_old_backups (fsSet (fsSet fs0 (bname op.file t0)
      ⟨f0.content, f0.mtime⟩) op.file ⟨cA, t0⟩) op.file 2 =
      fsSet (fsSet fs0 (bname op.file t0) ⟨f0.content, f0.mtime⟩) op.file ⟨cA, t0⟩ :=
    cleanup_of_le_two _ _ (by rw [hbeB0]; simp)
  have hst1 : (runOp D t0 fs0 op).2 =
      fsSet (fsSet fs0 (bname op.file t0) ⟨f0.content, f0.mtime⟩) op.file ⟨cA, t0⟩ := by
    rw [hshA, hclean0]
  have hok1' : (runOp D (t0 + 1) ((runOp D t0 fs0 op).2) op).1 = true := hok1
  obtain ⟨fB, cB, hfB, hshB⟩ := runOp_true_shape D (t0 + 1) ((runOp D t0 fs0 op).2) op hok1'
  have hlf1 : fsLookup ((runOp D t0 fs0 op).2) op.file = some ⟨cA, t0⟩ := by
    rw [hst1]
    exact fsLookup_fsSet_self _ _ _
  rw [hlf1] at hfB
  injection hfB with hB
  have hBc : fB.content = cA := by rw [← hB]
  have hBm : fB.mtime = t0 := by rw [← hB]
  rw [hBc, hBm] at hshB
  have hfreshB : fsLookup ((runOp D t0 fs0 op).2) (bname op.file (t0 + 1)) = none := by
    rw [hst1, fsLookup_fsSet_ne _ _ _ _ (bname_ne_self _ _),
      fsLookup_fsSet_ne _ _ _ _ (by
        intro h
        have := bname_inj _ _ _ h
        omega)]
    exact lookup_bname_none_of_no_backups fs0 op.file (t0 + 1) hnb
  have hbe1 : backupEntries ((runOp D t0 fs0 op).2) op.file =
      [(bname op.file t0, ⟨f0.content, f0.mtime⟩)] := by
    rw [hst1]
    exact hbeB0
  have hbeB1 : backupEntries (fsSet (fsSet ((runOp D t0 fs0 op).2)
      (bname op.file (t0 + 1)) ⟨cA, t0⟩) op.file ⟨cB, t0 + 1⟩) op.file =
      [(bname op.file t0, ⟨f0.content, f0.mtime⟩), (bname op.file (t0 + 1), ⟨cA, t0⟩)] := by
    rw [backupEntries_fsSet_not _ _ _ _ (isBackupOf_self_false op.file),
      backupEntries_fsSet_new _ _ _ _ (isBackupOf_bname _ _) hfreshB, hbe1]
    rfl
  have hclean1 : cleanup_old_backups (fsSet (fsSet ((runOp D t0 fs0 op).2)
      (bname op.file (t0 + 1)) ⟨cA, t0⟩) op.file ⟨cB, t0 + 1⟩) op.file 2 =
      fsSet (fsSet ((runOp D t0 fs0 op).2) (bname op.file (t0 + 1)) ⟨cA, t0⟩)
        op.file ⟨cB, t0 + 1⟩ :=
    cleanup_of_le_two _ _ (by rw [hbeB1]; simp)
  have h2 : (iterOp D op t0 2 fs0).2 = (runOp D (t0 + 1) ((runOp D t0 fs0 op).2) op).2 := rfl
  have hfin : (iterOp D op t0 2 fs0).2 =
      fsSet (fsSet ((runOp D t0 fs0 op).2) (bname op.file (t0 + 1)) ⟨cA, t0⟩)
        op.file ⟨cB, t0 + 1⟩ := by
    rw [h2, hshB, hclean1]
  refine ⟨cB, ⟨f0.content, f0.mtime⟩, ⟨cA, t0⟩, ?_, ?_, ?_, ?_⟩
  · have harith : t0 + 2 - 1 = t0 + 1 := by omega
    rw [harith, hfin]
    exact fsLookup_fsSet_self _ _ _
  · have ha : t0 + 2 - 2 = t0 := by omega
    have hb : t0 + 2 - 1 = t0 + 1 := by omega
    rw [ha, hb, hfin]
    exact hbeB1
  · show f0.mtime < (⟨cA, t0⟩ : RFile).mtime
    show f0.mtime < t0
    exact hm0
  · show (⟨cA, t0⟩ : RFile).mtime = t0 + 2 - 2
    show t0 = t0 + 2 - 2
    omega

theorem retention_aux (D : DBCS) (op : Oper) (t0 : Nat) (fs0 : FS) (f0 : RFile)
    (hf0 : fsLookup fs0 op.file = some f0)
    (hm0 : f0.mtime < t0)
    (hnb : ∀ e ∈ fs0, isBackupOf op.file e.1 = false) :
    ∀ N, 2 ≤ N → (iterOp D op t0 N fs0).1 = N →
      retentionInv op.file t0 N (iterOp D op t0 N fs0).2 := by
  intro N hN
  induction N, hN using Nat.le_induction with
  | base =>
    intro hsucc
    exact retention_base D op t0 fs0 f0 hf0 hm0 hnb hsucc
  | succ n hn ih =>
    intro hsucc
    obtain ⟨hcnt, hok⟩ := iterOp_all_succ D op n t0 fs0 hsucc
    have hinv := ih hcnt
    have hstep := retention_step D op t0 n (iterOp D op t0 n fs0).2 hn hinv hok
    have heq : (iterOp D op t0 (n + 1) fs0).2 =
        (runOp D (t0 + n) (iterOp D op t0 n fs0).2 op).2 := by
      rw [iterOp_succ_back]
    rw [heq]
    exact hstep

/-! ### Claim C6 -/

/-- C6, counterexample: after N = 1 successful replacement on a file with
`keep_count = 2`, exactly one backup file for that path remains on disk —
not "exactly 2" as claimed for every N. -/
theorem spec_c6_counterexample :
    (iterOp dbcsStub ⟨['d', '/', 'f'], [97], [97, 97]⟩ 7 1
      [(['d', '/', 'f'], ⟨[97], 5⟩)]).1 = 1 ∧
    (backupEntries (iterOp dbcsStub ⟨['d', '/', 'f'], [97], [97, 97]⟩ 7 1
      [(['d', '/', 'f'], ⟨[97], 5⟩)]).2 ['d', '/', 'f']).length = 1 := by
  refine ⟨?_, ?_⟩ <;> decide

/-- C6, amended: `cleanup_old_backups` keeps the `keep_count` most
recently modified backups; consequently, after N ≥ 2 successful
replacements on the same file with `keep_count = 2` (starting with no
backups on disk and a file older than the clock), exactly 2 backup files
for that path remain on disk — the ones created by the 2 most recent
replacements, ordered by modification time (for N < 2, all N backups
remain). -/
theorem spec_c6_amended (D : DBCS) (op : Oper) (N t0 : Nat) (fs0 : FS) (f0 : RFile)
    (hf0 : fsLookup fs0 op.file = some f0)
    (hm0 : f0.mtime < t0)
    (hnb : ∀ e ∈ fs0, isBackupOf op.file e.1 = false)
    (hN : 2 ≤ N)
    (hsucc : (iterOp D op t0 N fs0).1 = N) :
    ∃ b1 b2, backupEntries (iterOp D op t0 N fs0).2 op.file =
        [(bname op.file (t0 + N - 2), b1), (bname op.file (t0 + N - 1), b2)] ∧
      b1.mtime < b2.mtime ∧ b2.mtime = t0 + N - 2 := by
  obtain ⟨c, b1, b2, _, hbe, h12, h2t⟩ :=
    retention_aux D op t0 fs0 f0 hf0 hm0 hnb N hN hsucc
  exact ⟨b1, b2, hbe, h12, h2t⟩

theorem spec_c6_amended_witness :
    ∃ b1 b2, backupEntries (iterOp dbcsStub ⟨['d', '/', 'f'], [97], [97, 97]⟩ 7 3
        [(['d', '/', 'f'], ⟨[97], 5⟩)]).2 ['d', '/', 'f'] =
        [(bname ['d', '/', 'f'] (7 + 3 - 2), b1), (bname ['d', '/', 'f'] (7 + 3 - 1), b2)] ∧
      b1.mtime < b2.mtime ∧ b2.mtime = 7 + 3 - 2 :=
  spec_c6_amended dbcsStub ⟨['d', '/', 'f'], [97], [97, 97]⟩ 3 7
    [(['d', '/', 'f'], ⟨[97], 5⟩)] ⟨[97], 5⟩
    (by decide) (by decide) (by decide) (by decide) (by decide)
